import Mathlib

/-!
A verification development for the `umbi` Python package: a shallow embedding,
in Lean 4, of the data model and the codec layer of the UMB container format,
together with theorems settling the specification claims about it.

Modelling conventions used throughout:
* Python `bytes` values are `List Nat`, one entry per byte (each < 256 whenever
  produced by the embedded encoders).
* Python `int` is `Int`, Python `bool` is `Bool`.
* Python `fractions.Fraction` is the structure `Fraction` below; a value
  constructed by Python's `Fraction(n, d)` constructor is always reduced with a
  positive denominator, which `Fraction.make` reproduces.
* Python `float` is represented by its IEEE-754 binary64 bit pattern, a `Nat`
  below `2 ^ 64`.  All the embedded codecs treat doubles as opaque 64-bit
  patterns, exactly as `struct.pack("<d", ...)`/`BitArray(float=...)` do.
* A function that can raise (`assert`, `raise ValueError`, `KeyError`,
  `AttributeError`, `struct.error`, ...) is embedded as an `Option`-valued
  function returning `none` on the raising inputs.
* All encoders are embedded for the little-endian default
  (`little_endian=True`); no claim concerns the big-endian paths.
* Loops are embedded either as structural recursion or as fuel-indexed
  recursion where the fuel provably dominates the number of iterations, so
  that every definition evaluates by `decide`/`rfl`.
-/

namespace Umbi

/-! ## Bytes and bits -/

/-- Little-endian base-256 digits of `v`, exactly `numBytes` of them: the
byte list produced by Python's `v.to_bytes(numBytes, "little")` for
`0 ≤ v < 256 ^ numBytes`. -/
def natToBytesLE : Nat → Nat → List Nat
  | 0, _ => []
  | numBytes + 1, v => v % 256 :: natToBytesLE numBytes (v / 256)

/-- The value of a little-endian base-256 digit list, as computed by Python's
`int.from_bytes(data, "little")`. -/
def bytesToNatLE : List Nat → Nat
  | [] => 0
  | b :: bs => b + 256 * bytesToNatLE bs

/-- Big-endian (MSB-first) bit list of `v`, exactly `numBits` of them: the
contents of `bitstring.BitArray(uint=v, length=numBits)` (index 0 is the most
significant bit). -/
def natToBitsBE (numBits v : Nat) : List Bool :=
  (List.range numBits).map (fun i => v.testBit (numBits - 1 - i))

/-- The value of an MSB-first bit list (`BitArray.uint`). -/
def bitsToNatBE (bits : List Bool) : Nat :=
  bits.foldl (fun acc b => 2 * acc + cond b 1 0) 0

/-- The 8 bits of one byte, MSB first: `bitstring.BitArray(bytes=...)` for a
single byte. -/
def byteBitsBE (byte : Nat) : List Bool := natToBitsBE 8 byte

/-! ## `umbi.binary.integers`

Embedded from `src/umbi/binary/integers.py`.  Python's `int.bit_length()`
returns the bit length of the absolute value; it is embedded with an explicit
fuel (the first argument of `bit_length_aux`), which dominates the number of
halvings since `bit_length n ≤ n` for every `n`. -/

def bit_length_aux : Nat → Nat → Nat
  | _, 0 => 0
  | 0, _ => 0
  | fuel + 1, n => bit_length_aux fuel (n / 2) + 1

/-- Python `n.bit_length()` for a natural number. -/
def py_bit_length (n : Nat) : Nat := bit_length_aux n n

/-- Python `v.bit_length()`: the bit length of the absolute value. -/
def int_bit_length (v : Int) : Nat := py_bit_length v.natAbs

/-- `num_bits_for_integer(value, signed, round_up)` from
`src/umbi/binary/integers.py`. -/
def num_bits_for_integer (value : Int) (signed : Bool) (round_up : Bool) : Nat :=
  let num_bits : Nat :=
    if !signed then
      int_bit_length value
    else
      (if value ≥ 0 then int_bit_length value else int_bit_length (-value - 1)) + 1
  if round_up && (num_bits % 8 != 0) then num_bits + (8 - num_bits % 8) else num_bits

/-- `num_bytes_for_integer(value, signed, round_up)` from
`src/umbi/binary/integers.py`; note that `round_up=True` rounds the *byte*
count up to a multiple of 8 bytes. -/
def num_bytes_for_integer (value : Int) (signed : Bool) (round_up : Bool) : Nat :=
  let num_bytes := num_bits_for_integer value signed true / 8
  if round_up && (num_bytes % 8 != 0) then num_bytes + (8 - num_bytes % 8) else num_bytes

/-- `assert_integer_fits(value, signed, num_bits=num_bits)` from
`src/umbi/binary/integers.py`, as the range test it performs (`true` iff the
assertion passes, i.e. no `ValueError` is raised).  At `num_bits = 0` the
Python range computation itself raises (`1 << -1`), so nothing fits. -/
def assert_integer_fits (value : Int) (signed : Bool) (num_bits : Nat) : Bool :=
  if num_bits = 0 then false
  else
    let max_value : Int := if signed then 2 ^ (num_bits - 1) - 1 else 2 ^ num_bits - 1
    let min_value : Int := if signed then -(2 ^ (num_bits - 1)) else 0
    decide (min_value ≤ value) && decide (value ≤ max_value)

/-- `integer_to_bytes(value, num_bytes, signed)` from
`src/umbi/binary/integers.py`: check the range, then emit the little-endian
two's-complement byte string (`int.to_bytes`). -/
def integer_to_bytes (value : Int) (num_bytes : Nat) (signed : Bool) : Option (List Nat) :=
  if assert_integer_fits value signed (8 * num_bytes) then
    some (natToBytesLE num_bytes (value % (2 ^ (8 * num_bytes) : Int)).toNat)
  else
    none

/-- `bytes_to_integer(data, signed)` from `src/umbi/binary/integers.py`
(Python `int.from_bytes(data, "little", signed=signed)`). -/
def bytes_to_integer (data : List Nat) (signed : Bool) : Int :=
  let u := bytesToNatLE data
  if signed ∧ 256 ^ data.length ≤ 2 * u then
    (u : Int) - 256 ^ data.length
  else
    (u : Int)

/-! ## Common value types

`CommonType` from `src/umbi/datatypes/common_type.py` (a `str`-valued enum in
the source; the string tags are irrelevant to the claims, only the enum
identity is used). -/

inductive CommonType where
  | bytes
  | bool
  | int
  | uint
  | int16
  | uint16
  | int32
  | uint32
  | int64
  | uint64
  | double
  | rational
  | doubleInterval
  | rationalInterval
  | string
  | json
  | struct
deriving DecidableEq, Repr

/-- `is_fixed_size_integer_type` from `src/umbi/datatypes/common_type.py`. -/
def is_fixed_size_integer_type : CommonType → Bool
  | .int16 | .uint16 | .int32 | .uint32 | .int64 | .uint64 => true
  | _ => false

/-- `is_variable_size_integer_type` from `src/umbi/datatypes/common_type.py`. -/
def is_variable_size_integer_type : CommonType → Bool
  | .int | .uint => true
  | _ => false

/-- `is_integer_type` from `src/umbi/datatypes/common_type.py`. -/
def is_integer_type (t : CommonType) : Bool :=
  is_variable_size_integer_type t || is_fixed_size_integer_type t

/-- `is_interval_type` from `src/umbi/datatypes/common_type.py`. -/
def is_interval_type : CommonType → Bool
  | .doubleInterval | .rationalInterval => true
  | _ => false

/-- `interval_base_type` from `src/umbi/datatypes/common_type.py` (asserts the
argument is an interval type). -/
def interval_base_type : CommonType → Option CommonType
  | .doubleInterval => some .double
  | .rationalInterval => some .rational
  | _ => none

/-- `integer_type_signed` from `src/umbi/datatypes/common_type.py`: asserts an
integer type, then tests whether the enum member name starts with `"i"`. -/
def integer_type_signed : CommonType → Option Bool
  | .int | .int16 | .int32 | .int64 => some true
  | .uint | .uint16 | .uint32 | .uint64 => some false
  | _ => none

/-- `num_bytes_for_fixed_size_integer` from `src/umbi/binary/integers.py`
(asserts a fixed-size integer type). -/
def num_bytes_for_fixed_size_integer : CommonType → Option Nat
  | .int16 | .uint16 => some 2
  | .int32 | .uint32 => some 4
  | .int64 | .uint64 => some 8
  | _ => none

/-- `fixed_size_integer_to_bytes(value, value_type)` from
`src/umbi/binary/integers.py`. -/
def fixed_size_integer_to_bytes (value : Int) (value_type : CommonType) : Option (List Nat) := do
  let signed ← integer_type_signed value_type
  let num_bytes ← num_bytes_for_fixed_size_integer value_type
  integer_to_bytes value num_bytes signed

/-- `bytes_to_fixed_size_integer(data, value_type)` from
`src/umbi/binary/integers.py` (asserts the payload length matches the type). -/
def bytes_to_fixed_size_integer (data : List Nat) (value_type : CommonType) : Option Int := do
  let signed ← integer_type_signed value_type
  let num_bytes ← num_bytes_for_fixed_size_integer value_type
  if data.length = num_bytes then pure (bytes_to_integer data signed) else none

/-! ## Fractions and `umbi.binary.rationals`

Embedded from `src/umbi/binary/rationals.py`.  A Python `fractions.Fraction`
is always stored reduced with a positive denominator; `Fraction.make`
reproduces the constructor (including the `ZeroDivisionError` on a zero
denominator, embedded as `none`). -/

structure Fraction where
  num : Int
  den : Int
deriving DecidableEq, Repr

/-- Python's `Fraction(n, d)` constructor: reduce by the gcd and normalize the
sign of the denominator; `ZeroDivisionError` on `d = 0`. -/
def Fraction.make (n d : Int) : Option Fraction :=
  if d = 0 then none
  else
    let g : Int := Int.gcd n d
    let s : Int := if d < 0 then -1 else 1
    some ⟨s * n / g, s * d / g⟩

/-- The invariant of every value produced by Python's `Fraction` constructor:
positive denominator, reduced. -/
def Fraction.normalized (f : Fraction) : Prop :=
  0 < f.den ∧ Int.gcd f.num f.den = 1

instance (f : Fraction) : Decidable f.normalized := by
  unfold Fraction.normalized; infer_instance

/-- `normalize_rational` from `src/umbi/binary/rationals.py` (a no-op on every
value the `Fraction` constructor can produce, since those have a positive
denominator). -/
def normalize_rational (f : Fraction) : Fraction :=
  if f.den < 0 then ⟨-f.num, -f.den⟩ else f

/-- `num_bits_for_rational` from `src/umbi/binary/rationals.py`. -/
def num_bits_for_rational (f : Fraction) : Nat :=
  let numerator_size := num_bits_for_integer f.num true false
  let denominator_size := num_bits_for_integer f.den false false
  max numerator_size denominator_size * 2

/-- `num_bytes_for_rational` from `src/umbi/binary/rationals.py`. -/
def num_bytes_for_rational (f : Fraction) : Nat :=
  let numerator_size := num_bytes_for_integer f.num true true
  let denominator_size := num_bytes_for_integer f.den false true
  max numerator_size denominator_size * 2

/-- `rational_to_bytes(value, term_size)` from `src/umbi/binary/rationals.py`:
signed numerator then unsigned denominator, both at the same size in bytes;
raises (`none`) when the supplied `term_size` is smaller than the minimum. -/
def rational_to_bytes (value : Fraction) (term_size : Option Nat) : Option (List Nat) :=
  let value := normalize_rational value
  let minimal_term_size := num_bytes_for_rational value / 2
  let ts := term_size.getD minimal_term_size
  if term_size.isSome && decide (ts < minimal_term_size) then none
  else do
    let numerator_bytes ← integer_to_bytes value.num ts true
    let denominator_bytes ← integer_to_bytes value.den ts false
    pure (numerator_bytes ++ denominator_bytes)

/-- `bytes_to_rational(data)` from `src/umbi/binary/rationals.py`: asserts an
even length, reads a signed first half and an unsigned second half, and
rebuilds the `Fraction`. -/
def bytes_to_rational (data : List Nat) : Option Fraction :=
  if data.length % 2 = 0 then
    let mid := data.length / 2
    let numerator := bytes_to_integer (data.take mid) true
    let denominator := bytes_to_integer (data.drop mid) false
    Fraction.make numerator denominator
  else none

/-- `split_bytes(bytestring, length)` from `src/umbi/binary/utils.py`
(asserts `0 < length ≤ len(bytestring)`). -/
def split_bytes (bytestring : List Nat) (len : Nat) : Option (List Nat × List Nat) :=
  if 0 < len ∧ len ≤ bytestring.length then
    some (bytestring.take len, bytestring.drop len)
  else none

/-- `rational_pack(value)` from `src/umbi/binary/rationals.py`: a `uint16`
`term_size` prefix followed by the auto-sized encoding. -/
def rational_pack (value : Fraction) : Option (List Nat) := do
  let value := normalize_rational value
  let rational_bytes ← rational_to_bytes value none
  let term_size := rational_bytes.length / 2
  let prefix_bytes ← integer_to_bytes (term_size : Int) 2 false
  pure (prefix_bytes ++ rational_bytes)

/-- `rational_unpack(bytestring)` from `src/umbi/binary/rationals.py`:
read the `uint16` prefix, then the two equal-sized words; return the fraction
and the remainder of the byte string. -/
def rational_unpack (bytestring : List Nat) : Option (Fraction × List Nat) := do
  let (pfx, rest) ← split_bytes bytestring 2
  let term_size := (bytes_to_integer pfx false).toNat
  let (rational_bytes, remainder) ← split_bytes rest (term_size * 2)
  let rational ← bytes_to_rational rational_bytes
  pure (rational, remainder)

/-! ## CSR utilities

Embedded from `src/umbi/io/csr.py` (the file the claim cites; the copy in
`src/umbi/datatypes/vector.py` computes the same conversions).  The `assert`
statements become `none` results. -/

/-- The chained `vector[i] ≤ vector[i+1]` test of `is_vector_csr`. -/
def chain_le : List Int → Bool
  | a :: b :: t => decide (a ≤ b) && chain_le (b :: t)
  | _ => true

/-- `is_vector_csr` from `src/umbi/io/csr.py`: length at least 2, first entry
0, non-decreasing (the `isinstance(x, int)` checks hold by typing). -/
def is_vector_csr (vector : List Int) : Bool :=
  decide (2 ≤ vector.length) && decide (vector.head? = some 0) && chain_le vector

/-- The chained `ranges[i][1] = ranges[i+1][0]` test of `is_vector_ranges`. -/
def chain_link : List (Int × Int) → Bool
  | a :: b :: t => decide (a.2 = b.1) && chain_link (b :: t)
  | _ => true

/-- `is_vector_ranges` from `src/umbi/io/csr.py`: non-empty, each pair
`(s, e)` has `s ≤ e`, and consecutive pairs are linked. -/
def is_vector_ranges (ranges : List (Int × Int)) : Bool :=
  !ranges.isEmpty && ranges.all (fun p => decide (p.1 ≤ p.2)) && chain_link ranges

/-- The comprehension `[(csr[i], csr[i+1]) for i in range(len(csr)-1)]`. -/
def adj_pairs : List Int → List (Int × Int)
  | a :: b :: t => (a, b) :: adj_pairs (b :: t)
  | _ => []

/-- `csr_to_ranges(csr)` from `src/umbi/io/csr.py`; the entry and exit
`assert`s are embedded as `none` on failure. -/
def csr_to_ranges (csr : List Int) : Option (List (Int × Int)) :=
  if is_vector_csr csr then
    let ranges := adj_pairs csr
    if is_vector_ranges ranges then some ranges else none
  else none

/-- `ranges_to_csr(ranges)` from `src/umbi/io/csr.py`; `csr` is the list of
range starts with the final range's end appended. -/
def ranges_to_csr (ranges : List (Int × Int)) : Option (List Int) :=
  if is_vector_ranges ranges then
    match ranges.getLast? with
    | some last =>
        let csr := ranges.map Prod.fst ++ [last.2]
        if is_vector_csr csr then some csr else none
    | none => none
  else none

/-! ## Python values

A closed universe for the Python values that flow through the codec:
`bool`, `int`, `float` (as its binary64 bit pattern), `fractions.Fraction`,
`str` (as its UTF-8 byte sequence), 2-tuples, and `Interval` objects.  The
distinction between a tuple `(l, r)` and an `Interval(l, r)` object matters:
`umbi.binary.api.value_to_bytes` asserts `isinstance(value, tuple)` while
`umbi.binary.intervals.interval_to_bytes` reads `value.left` / `value.right`,
which only `Interval` objects have. -/

inductive Value where
  | bool (b : Bool)
  | int (v : Int)
  | double (bits : Nat)
  | rational (f : Fraction)
  | str (utf8 : List Nat)
  | tuple (left right : Value)
  | interval (left right : Value)
deriving DecidableEq, Repr

/-! ### IEEE-754 helpers

`float_of_nat`/`float_of_int` model Python's exact `int → float` conversion
(round to nearest, ties to even, overflow to infinity); `rat_of_double`
models `Fraction.from_float` (the exact binary fraction of a finite double).
`double_gt` models the `>` comparison on doubles via the sign-magnitude
ordering of bit patterns; any comparison involving a NaN is false. -/

def float_of_nat (n : Nat) : Nat :=
  if n = 0 then 0
  else
    let e := py_bit_length n - 1
    if e ≤ 52 then
      (1023 + e) * 2 ^ 52 + (n * 2 ^ (52 - e) - 2 ^ 52)
    else
      let shift := e - 52
      let q := n / 2 ^ shift
      let r := n % 2 ^ shift
      let half := 2 ^ (shift - 1)
      let q2 := if half < r ∨ (r = half ∧ q % 2 = 1) then q + 1 else q
      let m := if q2 = 2 ^ 53 then 2 ^ 52 else q2
      let e2 := if q2 = 2 ^ 53 then e + 1 else e
      if 2047 ≤ 1023 + e2 then 0x7FF0000000000000
      else (1023 + e2) * 2 ^ 52 + (m - 2 ^ 52)

def float_of_int (v : Int) : Nat :=
  if 0 ≤ v then float_of_nat v.toNat else 2 ^ 63 + float_of_nat (-v).toNat

/-- `Fraction.from_float`: the exact binary fraction of a finite double;
raises (`none`) on NaN and the infinities. -/
def rat_of_double (bits : Nat) : Option Fraction :=
  let sign : Nat := bits / 2 ^ 63 % 2
  let e : Nat := bits / 2 ^ 52 % 2 ^ 11
  let m : Nat := bits % 2 ^ 52
  if e = 2047 then none
  else
    let mantissa : Nat := if e = 0 then m else 2 ^ 52 + m
    let n : Int := if sign = 1 then -(mantissa : Int) else (mantissa : Int)
    let exp : Int := (if e = 0 then 1 else (e : Int)) - 1075
    if 0 ≤ exp then Fraction.make (n * 2 ^ exp.toNat) 1 else Fraction.make n (2 ^ (-exp).toNat)

def double_is_nan (bits : Nat) : Bool :=
  decide (bits / 2 ^ 52 % 2 ^ 11 = 2 ^ 11 - 1) && decide (bits % 2 ^ 52 ≠ 0)

/-- Sign-magnitude comparison key: IEEE-754 doubles (NaN aside) are ordered
exactly like these keys; `+0.0` and `-0.0` both map to 0. -/
def double_cmp_key (bits : Nat) : Int :=
  if bits < 2 ^ 63 then (bits : Int) else -((bits - 2 ^ 63 : Nat) : Int)

/-- Python `a > b` on doubles (false whenever either side is NaN). -/
def double_gt (a b : Nat) : Bool :=
  !double_is_nan a && !double_is_nan b && decide (double_cmp_key b < double_cmp_key a)

/-- Python `a > b` on `Fraction`s with positive denominators. -/
def frac_gt (a b : Fraction) : Bool := decide (b.num * a.den < a.num * b.den)

/-- Python truthiness of the values in our universe (`bool(v)`). -/
def py_truthy : Value → Bool
  | .bool b => b
  | .int v => decide (v ≠ 0)
  | .double bits => !(decide (bits = 0) || decide (bits = 2 ^ 63))
  | .rational f => decide (f.num ≠ 0)
  | .str s => !s.isEmpty
  | .tuple _ _ => true
  | .interval _ _ => true

/-! ## `umbi.binary.strings` and `umbi.binary.floats`

A Python `str` is embedded as its UTF-8 byte sequence, so
`string_to_bytes`/`bytes_to_string` (UTF-8 encode/decode, mutually inverse)
are the identity here.  Doubles travel as opaque 64-bit patterns. -/

def string_to_bytes (s : List Nat) : List Nat := s

def bytes_to_string (data : List Nat) : List Nat := data

/-- `string_pack` from `src/umbi/binary/strings.py`: a `uint16` length prefix
followed by the UTF-8 bytes (raises when the length overflows `uint16`). -/
def string_pack (s : List Nat) : Option (List Nat) := do
  let string_bytes := string_to_bytes s
  let prefix_bytes ← fixed_size_integer_to_bytes (string_bytes.length : Int) .uint16
  pure (prefix_bytes ++ string_bytes)

/-- `string_unpack` from `src/umbi/binary/strings.py`.  Note that
`split_bytes` asserts a *positive* chunk size, so a zero length prefix (the
encoding of the empty string) raises. -/
def string_unpack (bytestring : List Nat) : Option (List Nat × List Nat) := do
  let (pfx, rest) ← split_bytes bytestring 2
  let len := (bytes_to_integer pfx false).toNat
  let (string_bytes, remainder) ← split_bytes rest len
  pure (bytes_to_string string_bytes, remainder)

/-- `double_to_bytes` from `src/umbi/binary/floats.py`
(`struct.pack("<d", value)`): the 8 little-endian bytes of the bit pattern. -/
def double_to_bytes (bits : Nat) : List Nat := natToBytesLE 8 bits

/-- `bytes_to_double` from `src/umbi/binary/floats.py`
(`struct.unpack("<d", data)` requires exactly 8 bytes). -/
def bytes_to_double (data : List Nat) : Option Nat :=
  if data.length = 8 then some (bytesToNatLE data) else none

/-! ## `umbi.binary.primitives` -/

/-- `primitive_value_type_size` from `src/umbi/binary/primitives.py`
(`assert_is_primitive` raises for every other type). -/
def primitive_value_type_size : CommonType → Option Nat
  | .int16 | .uint16 => some 2
  | .int32 | .uint32 => some 4
  | .int64 | .uint64 => some 8
  | .double => some 8
  | _ => none

/-- `primitive_to_bytes(value, value_type)` from
`src/umbi/binary/primitives.py`: `struct.pack` with the format of the type.
`struct.pack` raises on out-of-range integers; for the `"d"` format it also
accepts Python ints and bools (converting to the nearest double), and for the
integer formats it accepts bools (as 0/1). -/
def primitive_to_bytes (value : Value) (value_type : CommonType) : Option (List Nat) :=
  match value_type with
  | .double =>
      match value with
      | .double bits => some (natToBytesLE 8 bits)
      | .int v => some (natToBytesLE 8 (float_of_int v))
      | .bool b => some (natToBytesLE 8 (float_of_int (cond b 1 0)))
      | _ => none
  | t => do
      let size ← primitive_value_type_size t
      let signed ← integer_type_signed t
      match value with
      | .int v => integer_to_bytes v size signed
      | .bool b => integer_to_bytes (cond b 1 0) size signed
      | _ => none

/-- `bytes_to_primitive(data, value_type)` from
`src/umbi/binary/primitives.py`: `struct.unpack` with the format of the type
(requires the exact payload size). -/
def bytes_to_primitive (data : List Nat) (value_type : CommonType) : Option Value :=
  match value_type with
  | .double => (bytes_to_double data).map .double
  | t => do
      let size ← primitive_value_type_size t
      let signed ← integer_type_signed t
      if data.length = size then pure (.int (bytes_to_integer data signed)) else none

/-! ## `umbi.binary.intervals`

The module body itself does not import (`from .rationals import rational_size`
names a function `src/umbi/binary/rationals.py` does not define), and its
`interval_to_bytes` reads `.left`/`.right`, which only `Interval` objects
carry.  Both failure modes are embedded as `none`. -/

/-- `interval_to_bytes(interval, value_type)` from
`src/umbi/binary/intervals.py`.  The rational branch calls the undefined name
`rational_size` (a `NameError` at run time), so it is `none`; the double
branch requires `Interval` endpoints that are floats. -/
def interval_to_bytes (value : Value) (value_type : CommonType) : Option (List Nat) := do
  let base ← interval_base_type value_type
  match value with
  | .interval left right =>
      match base, left, right with
      | .double, .double l, .double r => pure (double_to_bytes l ++ double_to_bytes r)
      | .rational, .rational _, .rational _ => none
      | _, _, _ => none
  | _ => none

/-- `bytes_to_interval(data, value_type)` from
`src/umbi/binary/intervals.py`: split in half, decode each endpoint, then the
`Interval` constructor raises when `left > right`. -/
def bytes_to_interval (data : List Nat) (value_type : CommonType) : Option Value := do
  let base ← interval_base_type value_type
  if data.length % 2 = 0 then
    let mid := data.length / 2
    match base with
    | .double => do
        let lower ← bytes_to_double (data.take mid)
        let upper ← bytes_to_double (data.drop mid)
        if double_gt lower upper then none
        else pure (.interval (.double lower) (.double upper))
    | .rational => do
        let lower ← bytes_to_rational (data.take mid)
        let upper ← bytes_to_rational (data.drop mid)
        if frac_gt lower upper then none
        else pure (.interval (.rational lower) (.rational upper))
    | _ => none
  else none

/-! ## `umbi.binary.api` -/

/-- `standard_value_type_size` from `src/umbi/binary/api.py`. -/
def standard_value_type_size : CommonType → Option Nat
  | .doubleInterval => (primitive_value_type_size .double).map (2 * ·)
  | .rationalInterval => some 32
  | .rational => some 16
  | t => primitive_value_type_size t

/-- `value_to_bytes(value, value_type)` from `src/umbi/binary/api.py`.  For
the interval types it asserts the value is a *tuple* and then calls
`interval_to_bytes`, which needs an `Interval` object — so every interval
encode raises. -/
def value_to_bytes (value : Value) (value_type : CommonType) : Option (List Nat) :=
  match value_type with
  | .string => match value with | .str s => some (string_to_bytes s) | _ => none
  | .rational => match value with | .rational f => rational_to_bytes f none | _ => none
  | .doubleInterval | .rationalInterval =>
      match value with
      | .tuple l r => interval_to_bytes (.tuple l r) value_type
      | _ => none
  | t =>
      match value with
      | .int v => primitive_to_bytes (.int v) t
      | .double d => primitive_to_bytes (.double d) t
      | .bool b => primitive_to_bytes (.bool b) t
      | _ => none

/-- `bytes_to_value(data, value_type)` from `src/umbi/binary/api.py`. -/
def bytes_to_value (data : List Nat) (value_type : CommonType) : Option Value :=
  match value_type with
  | .string => some (.str (bytes_to_string data))
  | .rational => (bytes_to_rational data).map .rational
  | .doubleInterval | .rationalInterval => bytes_to_interval data value_type
  | t => bytes_to_primitive data t

/-! ## `umbi.binary.booleans` -/

/-- The 8 bits of one byte, LSB first (`(byte >> bit) & 1` for
`bit in range(8)`). -/
def byteBitsLSB (byte : Nat) : List Bool :=
  (List.range 8).map (fun bit => byte.testBit bit)

/-- `bytes_to_bitvector(bytestring)` from `src/umbi/binary/booleans.py`. -/
def bytes_to_bitvector (bytestring : List Nat) : List Bool :=
  bytestring.flatMap byteBitsLSB

/-- The byte formed by up to 8 bits, LSB first
(`sum(1 << j for j in range(8) if ...)`). -/
def bits_to_byte_LSB (bits : List Bool) : Nat :=
  bits.foldr (fun b acc => cond b 1 0 + 2 * acc) 0

/-- The loop of `bitvector_to_bytes`, one byte per 8 bits; the fuel dominates
the iteration count since each step drops 8 bits. -/
def bitvector_to_bytes_aux : Nat → List Bool → List Nat
  | _, [] => []
  | 0, _ => []
  | fuel + 1, l => bits_to_byte_LSB (l.take 8) :: bitvector_to_bytes_aux fuel (l.drop 8)

/-- `bitvector_to_bytes(bitvector)` from `src/umbi/binary/booleans.py`:
packs LSB-first within each byte, padding the tail with zeros. -/
def bitvector_to_bytes (bitvector : List Bool) : List Nat :=
  bitvector_to_bytes_aux bitvector.length bitvector

/-! ## `umbi.binary.sequences`

Embedded from `src/umbi/binary/sequences.py` for common element types.  The
`CompositeType` branches delegate to the struct codec over per-item chunks and
are not needed by any claim, so the embedded `value_type` is a `CommonType`. -/

/-- `bytes_into_chunk_ranges(data, chunk_ranges)`: Python slices
`data[start:end]`. -/
def bytes_into_chunk_ranges (data : List Nat) (chunk_ranges : List (Nat × Nat)) :
    List (List Nat) :=
  chunk_ranges.map (fun r => (data.drop r.1).take (r.2 - r.1))

/-- `bytes_into_num_chunks(data, num_chunks)`: asserts a positive chunk count
dividing the length, then splits evenly. -/
def bytes_into_num_chunks (data : List Nat) (num_chunks : Nat) : Option (List (List Nat)) :=
  if 0 < num_chunks ∧ data.length % num_chunks = 0 then
    let chunk_size := data.length / num_chunks
    some (bytes_into_chunk_ranges data
      ((List.range num_chunks).map (fun i => (i * chunk_size, (i + 1) * chunk_size))))
  else none

/-- The chunk-range table built by `vector_to_bytes`: consecutive half-open
byte ranges sized by the chunks. -/
def chunk_ranges_from : Nat → List (List Nat) → List (Nat × Nat)
  | _, [] => []
  | pos, c :: cs => (pos, pos + c.length) :: chunk_ranges_from (pos + c.length) cs

/-- `bytes_to_vector(data, value_type, chunk_ranges)` from
`src/umbi/binary/sequences.py`. -/
def bytes_to_vector (data : List Nat) (value_type : CommonType)
    (chunk_ranges : Option (List (Nat × Nat))) : Option (List Value) :=
  if value_type = .bool then
    some ((bytes_to_bitvector data).map .bool)
  else if data.length = 0 then
    some []
  else
    match chunk_ranges with
    | none => do
        let chunk_size ← standard_value_type_size value_type
        if data.length % chunk_size = 0 then do
          let chunks ← bytes_into_num_chunks data (data.length / chunk_size)
          chunks.mapM (bytes_to_value · value_type)
        else none
    | some ranges =>
        (bytes_into_chunk_ranges data ranges).mapM (bytes_to_value · value_type)

/-- `vector_to_bytes(vector, value_type)` from
`src/umbi/binary/sequences.py`: returns the byte payload and, when a
non-trivial split is needed (strings, or some chunk off the standard size),
the chunk ranges. -/
def vector_to_bytes (vector : List Value) (value_type : CommonType) :
    Option (List Nat × Option (List (Nat × Nat))) :=
  if vector.length = 0 then
    some ([], none)
  else if value_type = .bool then
    some (bitvector_to_bytes (vector.map py_truthy), none)
  else do
    let chunks ← vector.mapM (value_to_bytes · value_type)
    let need_ranges ←
      if value_type = .string then pure true
      else do
        let std ← standard_value_type_size value_type
        pure (chunks.any (fun c => c.length ≠ std))
    pure (chunks.flatten, if need_ranges then some (chunk_ranges_from 0 chunks) else none)

/-! ## Struct types and the struct codec

Embedded from `src/umbi/datatypes/struct.py` and `src/umbi/binary/structs.py`.
Attribute names are strings in the source; they are embedded as `Nat` keys
(only identity is used).  The `lower`/`upper`/`offset` attribute fields are
never read by the codec and are omitted. -/

structure StructAttribute where
  name : Nat
  type : CommonType
  size : Option Nat
deriving DecidableEq, Repr

inductive StructField where
  | padding (padding : Nat)
  | attr (a : StructAttribute)
deriving DecidableEq, Repr

structure StructType where
  alignment : Nat
  fields : List StructField
deriving DecidableEq, Repr

/-- `boolean_pack(value, num_bits)` from `src/umbi/binary/booleans.py`
(`BitArray(uint=..., length=n)`; a zero length raises). -/
def boolean_pack (value : Bool) (num_bits : Option Nat) : Option (List Bool) :=
  let n := num_bits.getD 1
  if n = 0 then none else some (natToBitsBE n (cond value 1 0))

/-- `boolean_unpack(bits)` from `src/umbi/binary/booleans.py`
(`bits.uint != 0`). -/
def boolean_unpack (bits : List Bool) : Bool := decide (bitsToNatBE bits ≠ 0)

/-- `integer_pack(value, num_bits, signed)` from
`src/umbi/binary/integers.py`: range check, then the MSB-first
two's-complement bits (a zero length raises in `bitstring`). -/
def integer_pack (value : Int) (num_bits : Nat) (signed : Bool) : Option (List Bool) :=
  if num_bits = 0 then none
  else if assert_integer_fits value signed num_bits then
    some (natToBitsBE num_bits (value % (2 ^ num_bits : Int)).toNat)
  else none

/-- `integer_unpack(bits, signed)` from `src/umbi/binary/integers.py`
(`bits.int` / `bits.uint`; empty bit arrays raise). -/
def integer_unpack (bits : List Bool) (signed : Bool) : Option Int :=
  if bits.length = 0 then none
  else
    let u := bitsToNatBE bits
    if signed ∧ 2 ^ bits.length ≤ 2 * u then
      some ((u : Int) - 2 ^ bits.length)
    else
      some (u : Int)

/-- `double_pack(value)` from `src/umbi/binary/floats.py`
(`BitArray(float=value, length=64)`). -/
def double_pack (bits : Nat) : List Bool := natToBitsBE 64 bits

/-- `double_unpack(bits)` from `src/umbi/binary/floats.py` (asserts 64
bits). -/
def double_unpack (bits : List Bool) : Option Nat :=
  if bits.length = 64 then some (bitsToNatBE bits) else none

/-- The `StructPacker` state: the MSB-first bit buffer and the output byte
string. -/
structure PackState where
  buffer : List Bool
  bytestring : List Nat
deriving DecidableEq, Repr

/-- `bits.tobytes()` of exactly 8 bits. -/
def bits_to_byte (bits : List Bool) : Nat := bitsToNatBE bits

/-- The `while` loop of `StructPacker.flush_buffer`: while at least 8 bits
are buffered, move the 8 oldest (LSB-side) bits to the output as one byte.
The fuel dominates the iteration count since each pass removes 8 bits. -/
def flush_aux : Nat → List Bool → List Nat → List Bool × List Nat
  | 0, buf, out => (buf, out)
  | fuel + 1, buf, out =>
    if 8 ≤ buf.length then
      flush_aux fuel (buf.take (buf.length - 8))
        (out ++ [bits_to_byte (buf.drop (buf.length - 8))])
    else (buf, out)

/-- `StructPacker.flush_buffer` from `src/umbi/binary/structs.py`. -/
def flush_buffer (s : PackState) : PackState :=
  let r := flush_aux s.buffer.length s.buffer s.bytestring
  ⟨r.1, r.2⟩

/-- `StructPacker.append_to_buffer`: prepend the new bits on the MSB side,
then flush whole bytes. -/
def append_to_buffer (s : PackState) (bits : List Bool) : PackState :=
  flush_buffer ⟨bits ++ s.buffer, s.bytestring⟩

/-- `StructPacker.add_padding` (asserts a positive bit count). -/
def add_padding (s : PackState) (num_bits : Nat) : Option PackState :=
  if num_bits = 0 then none
  else some (append_to_buffer s (natToBitsBE num_bits 0))

/-- `StructPacker.pack_attribute(field, value)` from
`src/umbi/binary/structs.py`. -/
def pack_attribute (s : PackState) (field : StructAttribute) (value : Value) :
    Option PackState :=
  if field.type = .string ∨ field.type = .rational then
    -- expected to be byte-aligned before packing a string/rational
    if s.buffer.length ≠ 0 then none
    else
      match field.type, value with
      | .string, .str v => do
          let b ← string_pack v
          pure ⟨s.buffer, s.bytestring ++ b⟩
      | .rational, .rational f => do
          let b ← rational_pack f
          pure ⟨s.buffer, s.bytestring ++ b⟩
      | _, _ => none
  else do
    let value_bits ←
      match field.type, value with
      | .bool, .bool b => boolean_pack b field.size
      | .int, .int v => do integer_pack v (← field.size) true
      | .int, .bool b => do integer_pack (cond b 1 0) (← field.size) true
      | .uint, .int v => do integer_pack v (← field.size) false
      | .uint, .bool b => do integer_pack (cond b 1 0) (← field.size) false
      | .double, .double bits =>
          if field.size = some 64 then some (double_pack bits) else none
      | _, _ => none
    pure (append_to_buffer s value_bits)

/-- Python dict lookup `values[name]` over the embedded record
(`KeyError` is `none`). -/
def lookup_value (values : List (Nat × Value)) (name : Nat) : Option Value :=
  (values.find? (fun p => p.1 = name)).map (·.2)

/-- Python dict assignment `d[name] = value` (replace or append). -/
def dict_insert (d : List (Nat × Value)) (k : Nat) (v : Value) : List (Nat × Value) :=
  if d.any (fun p => p.1 = k) then
    d.map (fun p => if p.1 = k then (k, v) else p)
  else d ++ [(k, v)]

/-- The field loop of `StructPacker.pack_struct`. -/
def pack_fields : List StructField → List (Nat × Value) → PackState → Option PackState
  | [], _, s => some s
  | .padding p :: rest, values, s => do pack_fields rest values (← add_padding s p)
  | .attr a :: rest, values, s => do
      let v ← lookup_value values a.name
      pack_fields rest values (← pack_attribute s a v)

/-- `struct_pack(value_type, values)` from `src/umbi/binary/structs.py`
(`StructPacker().pack_struct(...)`; the final `assert_buffer_empty`
raises unless the layout ends byte-aligned). -/
def struct_pack (value_type : StructType) (values : List (Nat × Value)) :
    Option (List Nat) := do
  let s ← pack_fields value_type.fields values ⟨[], []⟩
  if s.buffer.length = 0 then pure s.bytestring else none

/-- The `StructUnpacker` state: the remaining input bytes and the MSB-first
bit buffer. -/
structure UnpackState where
  bytestring : List Nat
  buffer : List Bool
deriving DecidableEq, Repr

/-- The byte-reading loop of `StructUnpacker.align_buffer`: each byte read
from the stream front is prepended (MSB side) to the buffer. -/
def prepend_bytes (bytes : List Nat) (buf : List Bool) : List Bool :=
  bytes.foldl (fun acc byte => byteBitsBE byte ++ acc) buf

/-- `StructUnpacker.align_buffer(num_bits)` from
`src/umbi/binary/structs.py`. -/
def align_buffer (s : UnpackState) (num_bits : Nat) : Option UnpackState :=
  if num_bits ≤ s.buffer.length then some s
  else
    let num_bytes_needed := (num_bits - s.buffer.length + 7) / 8
    if s.bytestring.length < num_bytes_needed then none
    else
      some ⟨s.bytestring.drop num_bytes_needed,
            prepend_bytes (s.bytestring.take num_bytes_needed) s.buffer⟩

/-- `StructUnpacker.extract_from_buffer(num_bits)`: align, then remove the
`num_bits` newest-read (LSB-side) bits.  At `num_bits = 0` Python's slicing
(`buffer[-0:]`, `buffer[:-0]`) returns the whole buffer and empties it. -/
def extract_from_buffer (s : UnpackState) (num_bits : Nat) :
    Option (List Bool × UnpackState) := do
  let s ← align_buffer s num_bits
  if num_bits = 0 then
    pure (s.buffer, ⟨s.bytestring, []⟩)
  else
    pure (s.buffer.drop (s.buffer.length - num_bits),
          ⟨s.bytestring, s.buffer.take (s.buffer.length - num_bits)⟩)

/-- `StructUnpacker.unpack_attribute(field)` from
`src/umbi/binary/structs.py`. -/
def unpack_attribute (s : UnpackState) (field : StructAttribute) :
    Option (Value × UnpackState) :=
  if field.type = .string ∨ field.type = .rational then
    if s.buffer.length ≠ 0 then none
    else if field.type = .string then do
      let (v, rest) ← string_unpack s.bytestring
      pure (.str v, ⟨rest, s.buffer⟩)
    else do
      let (f, rest) ← rational_unpack s.bytestring
      pure (.rational f, ⟨rest, s.buffer⟩)
  else do
    let size ← field.size
    let (bits, s) ← extract_from_buffer s size
    match field.type with
    | .bool => pure (.bool (boolean_unpack bits), s)
    | .int => do pure (.int (← integer_unpack bits true), s)
    | .uint => do pure (.int (← integer_unpack bits false), s)
    | .double => do pure (.double (← double_unpack bits), s)
    | _ => none

/-- The field loop of `StructUnpacker.unpack_struct` (paddings are skipped
via `extract_from_buffer`). -/
def unpack_fields : List StructField → UnpackState → List (Nat × Value) →
    Option (List (Nat × Value) × UnpackState)
  | [], s, acc => some (acc, s)
  | .padding p :: rest, s, acc => do
      let (_, s) ← extract_from_buffer s p
      unpack_fields rest s acc
  | .attr a :: rest, s, acc => do
      let (v, s) ← unpack_attribute s a
      unpack_fields rest s (dict_insert acc a.name v)

/-- `struct_unpack(bytestring, value_type)` from
`src/umbi/binary/structs.py` (the final `assert_buffer_empty` checks the bit
buffer only; leftover whole bytes are not detected). -/
def struct_unpack (bytestring : List Nat) (value_type : StructType) :
    Option (List (Nat × Value)) := do
  let (nv, s) ← unpack_fields value_type.fields ⟨bytestring, []⟩ []
  if s.buffer.length = 0 then pure nv else none

/-! ## Conformance predicates and stream view for the struct codec

These definitions support the struct round-trip analysis.  `revFlat` is the
MSB-first bit stream represented by a little-endian-ordered byte string
(later bytes are more significant); both struct machines operate on this
stream: the packer prepends each field chunk at the MSB side and emits from
the LSB side, the unpacker reads bytes at the LSB side and consumes field
chunks from the stream tail.  `layout_ok`/`value_ok` spell out when a record
conforms to a struct layout in the sense the codec can actually round-trip:
positive bit sizes, declared sizes present, `double` at 64 bits, byte
alignment before every string/rational field and at the end of the layout,
integers in range, doubles 64-bit patterns, strings non-empty (the
counterexample shows empty strings break unpacking) with `uint16` lengths
and byte-valued code units, rationals reduced with positive denominators and
`uint16` term sizes. -/

def revFlat (bs : List Nat) : List Bool := (bs.reverse.map byteBitsBE).flatten

/-- Byte-alignment/size discipline of a field list; `off` is the current bit
offset modulo 8. -/
def layout_ok : List StructField → Nat → Bool
  | [], off => decide (off = 0)
  | .padding p :: rest, off => decide (0 < p) && layout_ok rest ((off + p) % 8)
  | .attr a :: rest, off =>
      match a.type, a.size with
      | .string, _ => decide (off = 0) && layout_ok rest 0
      | .rational, _ => decide (off = 0) && layout_ok rest 0
      | .bool, some n => decide (0 < n) && layout_ok rest ((off + n) % 8)
      | .int, some n => decide (0 < n) && layout_ok rest ((off + n) % 8)
      | .uint, some n => decide (0 < n) && layout_ok rest ((off + n) % 8)
      | .double, some n => decide (n = 64) && layout_ok rest ((off + n) % 8)
      | _, _ => false

/-- Value conformance for a single attribute. -/
def value_ok (a : StructAttribute) (v : Value) : Bool :=
  match a.type, v with
  | .bool, .bool _ => true
  | .int, .int z => assert_integer_fits z true (a.size.getD 0)
  | .uint, .int z => assert_integer_fits z false (a.size.getD 0)
  | .double, .double bits => decide (bits < 2 ^ 64)
  | .string, .str s =>
      !s.isEmpty && decide (s.length < 2 ^ 16) && s.all (fun b => decide (b < 256))
  | .rational, .rational f =>
      decide (0 < f.den) && decide (Int.gcd f.num f.den = 1) &&
        decide (num_bytes_for_rational f / 2 < 2 ^ 16)
  | _, _ => false

/-- Every attribute of the field list is bound in the record to a conforming
value. -/
def values_ok : List StructField → List (Nat × Value) → Bool
  | [], _ => true
  | .padding _ :: rest, vals => values_ok rest vals
  | .attr a :: rest, vals =>
      (match lookup_value vals a.name with
       | some v => value_ok a v
       | none => false) && values_ok rest vals

/-- The attribute names of a field list, in order. -/
def attr_names : List StructField → List Nat
  | [] => []
  | .padding _ :: rest => attr_names rest
  | .attr a :: rest => a.name :: attr_names rest

/-- The record the unpacker reconstructs: each attribute paired with its
value from the record, in field order. -/
def attr_pairs : List StructField → List (Nat × Value) → List (Nat × Value)
  | [], _ => []
  | .padding _ :: rest, vals => attr_pairs rest vals
  | .attr a :: rest, vals =>
      match lookup_value vals a.name with
      | some v => (a.name, v) :: attr_pairs rest vals
      | none => attr_pairs rest vals

/-- Induction devices for the struct round trip: the unpacker, fed any byte
stream whose `revFlat` extends the packed chunk stream `CH`, consumes exactly
`CH` and recovers the record. -/
def UnpackGoal (F : List StructField) (vals : List (Nat × Value))
    (spbuf : List Bool) (CH : List Bool) : Prop :=
  ∀ (tail : List Bool) (ubytes : List Nat) (ubuf : List Bool)
      (acc : List (Nat × Value)),
    revFlat ubytes ++ ubuf = tail ++ CH →
    ubuf.length < 8 →
    (∀ b ∈ ubytes, b < 256) →
    (tail.length + CH.length + spbuf.length) % 8 = 0 →
    (attr_names F).Nodup →
    (∀ n ∈ attr_names F, acc.all (fun p => p.1 ≠ n) = true) →
    ∃ ubytes2 ubuf2,
      unpack_fields F ⟨ubytes, ubuf⟩ acc =
        some (acc ++ attr_pairs F vals, ⟨ubytes2, ubuf2⟩) ∧
      revFlat ubytes2 ++ ubuf2 = tail ∧
      ubuf2.length < 8 ∧
      (∀ b ∈ ubytes2, b < 256)

/-- The packer succeeds, emits the chunk stream `CH` on top of the caller's
buffer, ends with an empty buffer, and the unpacker can undo it. -/
def PackUnpackGoal (F : List StructField) (vals : List (Nat × Value))
    (sp : PackState) : Prop :=
  ∃ sq D CH,
    pack_fields F vals sp = some sq ∧
    sq.bytestring = sp.bytestring ++ D ∧
    sq.buffer = [] ∧
    (∀ b ∈ D, b < 256) ∧
    revFlat D = CH ++ sp.buffer ∧
    UnpackGoal F vals sp.buffer CH

/-! ## Type detection and promotion

Embedded from `src/umbi/datatypes/utils.py` and
`src/umbi/datatypes/promotion.py`.  `is_numeric_type` is referenced by those
modules but its definition in `src/umbi/datatypes/common_type.py` is
commented out; it is embedded from that commented block (integer types plus
`double`/`rational` and the two interval types). -/

/-- `get_instance_type(value)` from `src/umbi/datatypes/utils.py`
(`ValueError` for values matching no common type; tuples are not JSON). -/
def get_instance_type : Value → Option CommonType
  | .bool _ => some .bool
  | .int _ => some .int
  | .double _ => some .double
  | .rational _ => some .rational
  | .interval l r =>
      match l, r with
      | .rational _, _ => some .rationalInterval
      | _, .rational _ => some .rationalInterval
      | _, _ => some .doubleInterval
  | .str _ => some .string
  | .tuple _ _ => none

/-- `is_numeric_type` (the commented block of
`src/umbi/datatypes/common_type.py`). -/
def is_numeric_type (t : CommonType) : Bool :=
  is_integer_type t ||
    (t == .double || t == .rational || t == .doubleInterval || t == .rationalInterval)

/-- The double bit patterns of the infinities. -/
def double_pos_inf : Nat := 0x7FF0000000000000

def double_neg_inf : Nat := 0xFFF0000000000000

/-- The `Fraction` view of the non-double numeric primitives. -/
def value_as_fraction : Value → Option Fraction
  | .int v => some ⟨v, 1⟩
  | .bool b => some ⟨cond b 1 0, 1⟩
  | .rational f => some f
  | _ => none

/-- Python `a ≤ b` on numeric primitives (`none` when the comparison raises
`TypeError`); comparisons involving NaN are false, comparisons between a
double and an int/Fraction are exact. -/
def value_le (a b : Value) : Option Bool :=
  match a, b with
  | .double x, .double y =>
      some (!double_is_nan x && !double_is_nan y && decide (double_cmp_key x ≤ double_cmp_key y))
  | .double x, v =>
      if (value_as_fraction v).isNone then none
      else if double_is_nan x then some false
      else if x = double_pos_inf then some false
      else if x = double_neg_inf then some true
      else do
        let fx ← rat_of_double x
        let fv ← value_as_fraction v
        pure (decide (fx.num * fv.den ≤ fv.num * fx.den))
  | v, .double y =>
      if (value_as_fraction v).isNone then none
      else if double_is_nan y then some false
      else if y = double_pos_inf then some true
      else if y = double_neg_inf then some false
      else do
        let fy ← rat_of_double y
        let fv ← value_as_fraction v
        pure (decide (fv.num * fy.den ≤ fy.num * fv.den))
  | a, b => do
      let fa ← value_as_fraction a
      let fb ← value_as_fraction b
      pure (decide (fa.num * fb.den ≤ fb.num * fa.den))

/-- `promote_numeric_primitive(value, target_type)` from
`src/umbi/datatypes/utils.py`.  Note Python `bool` is an `int` instance, and
`float → Fraction` uses `Fraction.from_float` (raises on NaN/inf). -/
def promote_numeric_primitive (value : Value) (target_type : CommonType) : Option Value :=
  match target_type with
  | .int =>
      match value with
      | .int v => some (.int v)
      | .bool b => some (.bool b)
      | _ => none
  | .double =>
      match value with
      | .double bits => some (.double bits)
      | .int v => some (.double (float_of_int v))
      | .bool b => some (.double (float_of_int (cond b 1 0)))
      | _ => none
  | .rational =>
      match value with
      | .rational f => some (.rational f)
      | .int v => some (.rational ⟨v, 1⟩)
      | .bool b => some (.rational ⟨cond b 1 0, 1⟩)
      | .double bits => (rat_of_double bits).map .rational
      | _ => none
  | _ => none

/-- `promote_numeric(value, target_type)` from
`src/umbi/datatypes/utils.py`; for an interval target both endpoints are
promoted to the base type and the `Interval` constructor validates
`left ≤ right`. -/
def promote_numeric (value : Value) (target_type : CommonType) : Option Value :=
  if !is_interval_type target_type then
    match value with
    | .interval _ _ => none
    | .tuple _ _ => none
    | .str _ => none
    | v => promote_numeric_primitive v target_type
  else do
    let (left, right) :=
      match value with
      | .interval l r => (l, r)
      | v => (v, v)
    let base ← interval_base_type target_type
    let left ← promote_numeric_primitive left base
    let right ← promote_numeric_primitive right base
    let le ← value_le left right
    if le then pure (.interval left right) else none

/-- `promote_to_vector_of_numeric(vector, target_type)` from
`src/umbi/datatypes/vector.py`. -/
def promote_to_vector_of_numeric (vector : List Value) (target_type : CommonType) :
    Option (List Value) :=
  vector.mapM (promote_numeric · target_type)

/-- `vector_element_types(vector)` from `src/umbi/datatypes/vector.py`
(a Python `set`; embedded as a deduplicated list, only membership and
cardinality are ever used). -/
def vector_element_types (vector : List Value) : Option (List CommonType) :=
  (vector.mapM get_instance_type).map List.dedup

/-- `can_promote_numeric_to(types)` from `src/umbi/datatypes/promotion.py`
(called `common_numeric_type` at some import sites): the least upper bound in
the numeric promotion lattice. -/
def can_promote_numeric_to (types : List CommonType) : Option CommonType :=
  if types.isEmpty then none
  else if types.any (fun t => !is_numeric_type t) then none
  else if types.contains .rationalInterval then some .rationalInterval
  else if types.contains .doubleInterval then
    if types.contains .rational then some .rationalInterval else some .doubleInterval
  else if types.contains .rational then some .rational
  else if types.contains .double then some .double
  else some .int

/-- `can_promote_vector_to(vector)` from `src/umbi/datatypes/promotion.py`
(empty vectors promote to `int`). -/
def can_promote_vector_to (vector : List Value) : Option CommonType :=
  if vector.isEmpty then some .int
  else do can_promote_numeric_to (← vector_element_types vector)

/-! ## ATS annotations

Embedded from `src/umbi/ats/annotation.py`.  Annotation names, aliases and
descriptions are strings in the source and are embedded as `Nat` keys; the
`isinstance` checks on them hold by typing. -/

inductive ApplyTo where
  | states
  | choices
  | branches
deriving DecidableEq, Repr

/-- The common shape of `Annotation` and its reward/AP subclasses. -/
structure AnnotData where
  name : Nat
  -- `alias` is a Lean keyword; this is the `alias` field of the source class
  aliasKey : Option Nat
  description : Option Nat
  state_to_value : Option (List Value)
  choice_to_value : Option (List Value)
  branch_to_value : Option (List Value)
deriving DecidableEq, Repr

/-- The `mappings` property: the non-`None` maps, in field order. -/
def annot_mappings (a : AnnotData) : List (ApplyTo × List Value) :=
  ([(.states, a.state_to_value), (.choices, a.choice_to_value),
    (.branches, a.branch_to_value)] : List (ApplyTo × Option (List Value))).filterMap
    (fun p => p.2.map (fun v => (p.1, v)))

/-- The `type` property of `Annotation`: the union of the element types over
all present maps; raises when empty; `common_numeric_type` when mixed. -/
def annot_type (a : AnnotData) : Option CommonType := do
  let types ← vector_element_types ((annot_mappings a).flatMap Prod.snd)
  match types with
  | [] => none
  | [t] => pure t
  | ts => can_promote_numeric_to ts

/-- `Annotation.validate`: at least one of the three maps must be set. -/
def annot_validate (a : AnnotData) : Option Unit :=
  if (annot_mappings a).isEmpty then none else some ()

/-- `RewardAnnotation.validate`: the base checks plus a numeric type. -/
def reward_annot_validate (a : AnnotData) : Option Unit := do
  let _ ← annot_validate a
  let t ← annot_type a
  if is_numeric_type t then pure () else none

/-- `AtomicPropositionAnnotation.validate`: the base checks plus a boolean
type. -/
def ap_annot_validate (a : AnnotData) : Option Unit := do
  let _ ← annot_validate a
  let t ← annot_type a
  if t = .bool then pure () else none

/-- `ObservationAnnotation`: fixed name, plus the observation count. -/
structure ObservationAnnot where
  num_observations : Int
  state_to_value : Option (List Value)
  choice_to_value : Option (List Value)
  branch_to_value : Option (List Value)
deriving DecidableEq, Repr

def obs_annot_data (o : ObservationAnnot) : AnnotData :=
  ⟨0, none, none, o.state_to_value, o.choice_to_value, o.branch_to_value⟩

/-- `ObservationAnnotation.validate`: base checks, a positive count, exactly
one mapping, and every observation in `[0, num_observations)` (the values are
`list[int]` by the class annotations; a non-int entry would raise in the
comparison). -/
def obs_annot_validate (o : ObservationAnnot) : Option Unit := do
  let _ ← annot_validate (obs_annot_data o)
  if !decide (0 < o.num_observations) then none
  else
    match annot_mappings (obs_annot_data o) with
    | [(_, mapping)] =>
        if mapping.all (fun v =>
            match v with
            | .int k => decide (0 ≤ k) && decide (k < o.num_observations)
            | _ => false) then
          pure ()
        else none
    | _ => none

/-! ## Variable valuations

Embedded from `src/umbi/ats/variable_valuations.py`, to the depth
`ExplicitAts.validate` exercises: per-variable value lists (with possible
`None` holes from `ensure_capacity`), domain syncing (which sorts the value
set and deduces the type) and the length checks. -/

structure VarValuations where
  name : Nat
  values : List (Option Value)
deriving DecidableEq, Repr

structure ItemValuations where
  num_items : Nat
  vars : List VarValuations
deriving DecidableEq, Repr

/-- Python mutual comparability of a valuation list, as needed by
`sorted(set(values))`: numeric scalars sort together, strings sort together;
a `None` hole or an `Interval`/tuple raises `TypeError`. -/
def py_sortable (vs : List Value) : Bool :=
  vs.all (fun v => (value_as_fraction v).isSome || (v matches Value.double _)) ||
    vs.all (fun v => v matches Value.str _)

/-- `Variable.sync_domain(values)`: requires a non-empty list, sorts the
value set, then deduces the variable type (unique element type, else the
common numeric promotion). -/
def var_sync_domain_type (values : List (Option Value)) : Option CommonType := do
  if values.isEmpty then none
  else do
    let vs ← values.mapM id
    if !py_sortable vs then none
    else do
      let types ← vector_element_types vs
      match types with
      | [t] => pure t
      | ts => can_promote_numeric_to ts

/-- `Variable.validate` (from `src/umbi/ats/variable_valuations.py`) after a
domain sync: the deduced type must be a supported scalar type. -/
def var_type_supported (t : CommonType) : Bool :=
  t == .bool || t == .int || t == .double || t == .rational || t == .string

/-- `ItemValuations.validate`: sync every variable's domain (which can
raise), check the deduced types are supported, and check every variable has
exactly `num_items` values. -/
def item_valuations_validate (iv : ItemValuations) : Option Unit := do
  let _ ← iv.vars.mapM (fun v => do
    let t ← var_sync_domain_type v.values
    if var_type_supported t then pure () else none)
  if iv.vars.all (fun v => v.values.length = iv.num_items) then pure () else none

/-! ## The ATS facade

Embedded from `src/umbi/ats/explicit_ats.py` (the revision the claims cite;
`src/umbi/ats/model_info.py` supplies `ModelInfo`).  String-valued fields are
embedded as `Nat` keys, and name-keyed annotation dictionaries as
insertion-ordered association lists, matching Python dict semantics. -/

inductive TimeType where
  | discrete
  | stochastic
  | urgentStochastic
deriving DecidableEq, Repr

structure ModelInfo where
  name : Option Nat
  version : Option Nat
  authors : Option (List Nat)
  description : Option Nat
  comment : Option Nat
  doi : Option Nat
  url : Option Nat
deriving DecidableEq, Repr

structure ExplicitAts where
  model_info : Option ModelInfo
  time : TimeType
  num_states : Int
  num_players : Int
  state_to_player : Option (List Int)
  num_initial_states : Int
  state_is_initial : List Bool
  num_choices : Int
  state_to_choice : Option (List Int)
  num_branches : Int
  choice_to_branch : Option (List Int)
  branch_to_target : Option (List Int)
  branch_probabilities : Option (List Value)
  state_is_markovian : Option (List Bool)
  state_exit_rate : Option (List Value)
  num_actions : Int
  choice_to_action : Option (List Int)
  action_strings : Option (List (List Nat))
  num_branch_actions : Int
  branch_to_branch_action : Option (List Int)
  branch_action_strings : Option (List (List Nat))
  reward_annots : List (Nat × AnnotData)
  ap_annots : List (Nat × AnnotData)
  observation_annot : Option ObservationAnnot
  state_valuations : ItemValuations
deriving DecidableEq, Repr

/-- The `initial_states` property (`[i for i, b in enumerate(...) if b]`),
reduced to the count which `validate` compares. -/
def num_true (l : List Bool) : Nat := (l.filter id).length

/-- Python list indexing `l[i]`, including negative indices
(`IndexError` is `none`). -/
def py_list_get {α : Type} (l : List α) (i : Int) : Option α :=
  let j := if i < 0 then (l.length : Int) + i else i
  if 0 ≤ j ∧ j < (l.length : Int) then l.get? j.toNat else none

/-- The IEEE-754 binary64 pattern of `1.0`. -/
def float_one_bits : Nat := 0x3FF0000000000000

/-- `ExplicitAts.get_branch_probability(branch_id)` from
`src/umbi/ats/explicit_ats.py`: index into `branch_probabilities` when set,
else the constant float `1.0`. -/
def ExplicitAts.get_branch_probability (ats : ExplicitAts) (branch_id : Int) : Option Value :=
  match ats.branch_probabilities with
  | some ps => py_list_get ps branch_id
  | none => some (.double float_one_bits)

/-- The `branch_probability_type` property (outer `none` = raises; inner
`none` = Python `None`). -/
def ExplicitAts.branch_probability_type (ats : ExplicitAts) : Option (Option CommonType) :=
  match ats.branch_probabilities with
  | none => some none
  | some ps => (can_promote_vector_to ps).map some

/-- The `exit_rate_type` property. -/
def ExplicitAts.exit_rate_type (ats : ExplicitAts) : Option (Option CommonType) :=
  match ats.state_exit_rate with
  | none => some none
  | some v => (can_promote_vector_to v).map some

/-- `has_state_valuations`: at least one variable. -/
def ExplicitAts.has_state_valuations (ats : ExplicitAts) : Bool :=
  0 < ats.state_valuations.vars.length

/-- `ExplicitAts.validate` from `src/umbi/ats/explicit_ats.py` (the body is
marked `# TODO implement`): positive state count, player/initial-state/CSR
*length* checks, the initial-state count, annotation validation, and the
state-valuation checks.  Branch targets, CSR monotonicity and boundary
values are not checked. -/
def ats_validate (ats : ExplicitAts) : Option Unit := do
  if !decide (0 < ats.num_states) then none
  else do
    if 1 < ats.num_players then
      match ats.state_to_player with
      | none => none
      | some l => if (l.length : Int) = ats.num_states then pure () else none
    else pure ()
    if (ats.state_is_initial.length : Int) ≠ ats.num_states then none
    else if ats.num_initial_states ≠ (num_true ats.state_is_initial : Int) then none
    else do
      match ats.state_to_choice with
      | some l => if (l.length : Int) = ats.num_states + 1 then pure () else none
      | none => pure ()
      match ats.choice_to_branch with
      | some l => if (l.length : Int) = ats.num_choices + 1 then pure () else none
      | none => pure ()
      match ats.branch_to_target with
      | some l => if (l.length : Int) = ats.num_branches then pure () else none
      | none => pure ()
      let _ ← ats.reward_annots.mapM (fun p => reward_annot_validate p.2)
      let _ ← ats.ap_annots.mapM (fun p => ap_annot_validate p.2)
      match ats.observation_annot with
      | some o => obs_annot_validate o
      | none => pure ()
      if ats.has_state_valuations then
        if (ats.state_valuations.num_items : Int) = ats.num_states then
          item_valuations_validate ats.state_valuations
        else none
      else pure ()

/-! ## The UMB index and the ATS ↔ UMB converter

Embedded from `src/umbi/io/index/*.py` and
`src/umbi/io/umb_ats_converter.py`.  `format-version`/`format-revision` and
the tool identification are process-wide constants read from the project
configuration at startup; their values are irrelevant to every claim. -/

def format_version_const : Int := 0

def format_revision_const : Int := 0

/-- `Annotation` from `src/umbi/io/index/annotations.py` (the manifest-level
descriptor). -/
structure UmbAnnot where
  -- `alias` is a Lean keyword; this is the `alias` field of the source class
  aliasKey : Option Nat
  description : Option Nat
  applies_to : Option (List ApplyTo)
  type : Option CommonType
  lower : Option Value
  upper : Option Value
deriving DecidableEq, Repr

/-- `Annotations` from `src/umbi/io/index/annotations.py`. -/
structure UmbAnnots where
  rewards : Option (List (Nat × UmbAnnot))
  aps : Option (List (Nat × UmbAnnot))
deriving DecidableEq, Repr

/-- `TransitionSystem` from `src/umbi/io/index/transition_system.py`. -/
structure TransitionSystem where
  time : TimeType
  num_players : Int
  num_states : Int
  num_initial_states : Int
  num_choices : Int
  num_actions : Int
  num_branches : Int
  num_branch_actions : Int
  num_observations : Int
  observations_apply_to : Option ApplyTo
  branch_probability_type : Option CommonType
  exit_rate_type : Option CommonType
deriving DecidableEq, Repr

/-- `ModelData` from `src/umbi/io/index/model_data.py`. -/
structure ModelData where
  name : Option Nat
  version : Option Nat
  authors : Option (List Nat)
  description : Option Nat
  comment : Option Nat
  doi : Option Nat
  url : Option Nat
deriving DecidableEq, Repr

/-- `FileData` from `src/umbi/io/index/file_data.py`; `creation_date` is the
wall clock at write time, embedded as a constant (no claim reads it). -/
structure FileData where
  tool : Nat
  tool_version : Nat
  creation_date : Int
deriving DecidableEq, Repr

def umbi_file_data : FileData := ⟨0, 0, 0⟩

/-- `UmbIndex` from `src/umbi/io/index/umb_index.py`.  The two `dyn_*`
fields are *not* dataclass fields: the converter assigns
`umb.index.exit_rate_type` / `umb.index.branch_probability_type` as dynamic
attributes, which the schema (and hence the writer, which consults
`index.transition_system.*`) never reads. -/
structure UmbIndex where
  format_version : Int
  format_revision : Int
  model_data : Option ModelData
  file_data : Option FileData
  transition_system : TransitionSystem
  annots : Option UmbAnnots
  state_valuations : Option StructType
  dyn_exit_rate_type : Option CommonType
  dyn_branch_probability_type : Option CommonType
deriving DecidableEq, Repr

/-- `ExplicitUmb` from `src/umbi/io/umb.py`.  The four `dyn_*` fields are
*not* dataclass fields: `explicit_ats_to_explicit_umb` assigns
`umb.state_exit_rate`, `umb.branch_probabilities`, `umb.action_strings` and
`umb.state_valuations` as dynamic attributes, while the dataclass (and the
writer/reader) use `state_to_exit_rate`, `branch_to_probability`,
`action_to_string` and `state_to_valuation`. -/
structure ExplicitUmb where
  index : UmbIndex
  state_is_initial : List Bool
  state_to_choice : Option (List Int)
  state_to_player : Option (List Int)
  state_is_markovian : Option (List Bool)
  state_to_exit_rate : Option (List Value)
  choice_to_branch : Option (List Int)
  branch_to_target : Option (List Int)
  branch_to_probability : Option (List Value)
  choice_to_action : Option (List Int)
  action_to_string : Option (List (List Nat))
  branch_to_branch_action : Option (List Int)
  branch_action_to_string : Option (List (List Nat))
  rewards : Option (List (Nat × List (ApplyTo × List Value)))
  aps : Option (List (Nat × List (ApplyTo × List Value)))
  item_to_observation : Option (List Int)
  state_to_valuation : Option (List (List (Nat × Value)))
  dyn_state_exit_rate : Option (List Value)
  dyn_branch_probabilities : Option (List Value)
  dyn_action_strings : Option (List (List Nat))
  dyn_state_valuations : Option (List (List (Nat × Value)))
deriving DecidableEq, Repr

/-- The effective checks of `UmbIndex.validate()` (which round-trips the
object through its marshmallow schema): the field validators of
`TransitionSystemSchema` (`#states ≥ 1`, `#choices ≥ 1`, the other counts
non-negative) and the `FieldUint` checks on the format fields. -/
def umb_index_validate (idx : UmbIndex) : Option Unit :=
  if 0 ≤ idx.format_version ∧ 0 ≤ idx.format_revision ∧
      0 ≤ idx.transition_system.num_players ∧
      1 ≤ idx.transition_system.num_states ∧
      0 ≤ idx.transition_system.num_initial_states ∧
      1 ≤ idx.transition_system.num_choices ∧
      0 ≤ idx.transition_system.num_actions ∧
      0 ≤ idx.transition_system.num_branches ∧
      0 ≤ idx.transition_system.num_branch_actions ∧
      0 ≤ idx.transition_system.num_observations then
    some ()
  else none

/-- `ExplicitUmb.validate` from `src/umbi/io/umb.py`. -/
def umb_validate (umb : ExplicitUmb) : Option Unit := umb_index_validate umb.index

/-- `ats_annotation_to_umb_annotation(annotation)` from
`src/umbi/io/umb_ats_converter.py`: derive the target type, promote every
non-string non-bool mapping to it, and build the manifest descriptor. -/
def ats_annotation_to_umb_annotation (a : AnnotData) :
    Option (UmbAnnot × List (ApplyTo × List Value)) := do
  let target_type ← annot_type a
  let applies_values ← (annot_mappings a).mapM (fun p => do
    if target_type ≠ .string ∧ target_type ≠ .bool then
      pure (p.1, ← promote_to_vector_of_numeric p.2 target_type)
    else
      pure p)
  pure (⟨a.aliasKey, a.description, some (applies_values.map Prod.fst), some target_type,
         none, none⟩,
        applies_values)

/-- `ExplicitAts` (src/umbi/ats/explicit_ats.py) declares no field
`num_observations`; the read `ats.num_observations` in
`explicit_ats_to_explicit_umb` therefore raises `AttributeError` (the
revision in `src/umbi/ats/ats.py` has such a field, but it is not the class
the converter receives). -/
def ats_attr_num_observations (_ : ExplicitAts) : Option Int := none

/-- `ExplicitAts` declares no field `state_valuations_values` either; the
read `ats.state_valuations_values` raises `AttributeError`. -/
def ats_attr_state_valuations_values (_ : ExplicitAts) :
    Option (Option (List (List (Nat × Value)))) := none

/-- The annotation loops of `explicit_ats_to_explicit_umb`: one manifest
descriptor and one values mapping per annotation, keyed by name. -/
def convert_annot_list (l : List (Nat × AnnotData)) :
    Option (List (Nat × (UmbAnnot × List (ApplyTo × List Value)))) :=
  l.mapM (fun p => do
    let (ua, av) ← ats_annotation_to_umb_annotation p.2
    pure (p.1, ua, av))

/-- `explicit_ats_to_explicit_umb(ats)` from
`src/umbi/io/umb_ats_converter.py`: validate, convert the annotations, build
the index (the `TransitionSystem` argument list reads
`ats.num_observations`, which no `ExplicitAts` has), then fill in the value
vectors (promoting exit rates and branch probabilities to their derived
types) and validate the result. -/
def explicit_ats_to_explicit_umb (ats : ExplicitAts) : Option ExplicitUmb := do
  let _ ← ats_validate ats
  let reward_conv ← convert_annot_list ats.reward_annots
  let ap_conv ← convert_annot_list ats.ap_annots
  -- `UmbIndex(...)`: the keyword arguments are evaluated in order;
  -- `transition_system=TransitionSystem(..., num_observations=ats.num_observations, ...)`
  -- raises before anything else is built.
  let num_obs ← ats_attr_num_observations ats
  let ts : TransitionSystem :=
    ⟨ats.time, ats.num_players, ats.num_states, ats.num_initial_states,
     ats.num_choices, ats.num_actions, ats.num_branches, ats.num_branch_actions,
     num_obs, none, none, none⟩
  let md : Option ModelData := ats.model_info.map (fun m =>
    ⟨m.name, m.version, m.authors, m.description, m.comment, m.doi, m.url⟩)
  let idx0 : UmbIndex :=
    ⟨format_version_const, format_revision_const, md, some umbi_file_data, ts,
     some ⟨some (reward_conv.map (fun p => (p.1, p.2.1))),
           some (ap_conv.map (fun p => (p.1, p.2.1)))⟩,
     none, none, none⟩
  -- exit rates: derive the promotion type, record it as the dynamic
  -- attribute `umb.index.exit_rate_type`, and promote
  let (idx1, dyn_exit) ←
    match ats.state_exit_rate with
    | none => pure (idx0, (none : Option (List Value)))
    | some rates => do
        let t ← ats.exit_rate_type
        let t ← t
        let promoted ← promote_to_vector_of_numeric rates t
        pure ({ idx0 with dyn_exit_rate_type := some t }, some promoted)
  -- branch probabilities: same shape
  let (idx2, dyn_probs) ←
    match ats.branch_probabilities with
    | none => pure (idx1, (none : Option (List Value)))
    | some probs => do
        let t ← ats.branch_probability_type
        let t ← t
        let promoted ← promote_to_vector_of_numeric probs t
        pure ({ idx1 with dyn_branch_probability_type := some t }, some promoted)
  let svv ← ats_attr_state_valuations_values ats
  let umb : ExplicitUmb :=
    ⟨idx2, ats.state_is_initial, ats.state_to_choice, ats.state_to_player,
     ats.state_is_markovian, none, ats.choice_to_branch, ats.branch_to_target,
     none, ats.choice_to_action, none, none, none,
     some (reward_conv.map (fun p => (p.1, p.2.2))),
     some (ap_conv.map (fun p => (p.1, p.2.2))),
     none, none,
     dyn_exit, dyn_probs, ats.action_strings, svv⟩
  let _ ← umb_validate umb
  pure umb

/-! ## The JSON schema base class

Embedded from `src/umbi/io/index/json_schema.py`.  `JsonSchema.make_object`
runs after a marshmallow load with `unknown = INCLUDE`, so `data` holds the
declared and the unknown top-level keys together.  The embedding is
polymorphic in the key and value types (keys are strings and values JSON in
the source; only key identity is used). -/

/-- Python `data.get(field, None)` over the association-list view of a
dict. -/
def py_dict_get {α β : Type} [DecidableEq α] (data : List (α × β)) (k : α) : Option β :=
  (data.find? (fun p => decide (p.1 = k))).map (·.2)

/-- `JsonSchema.make_object(data)` from `src/umbi/io/index/json_schema.py`:
returns the warned-about unknown keys (`set(data.keys()) - set(fields)`,
embedded as a deduplicated list) and the constructed result object, which
holds an attribute for each *declared* field only. -/
def make_object {α β : Type} [DecidableEq α] (schema_fields : List α)
    (data : List (α × β)) : List α × List (α × Option β) :=
  (((data.map Prod.fst).filter (fun k => decide (k ∉ schema_fields))).dedup,
   schema_fields.map (fun f => (f, py_dict_get data f)))

/-! # Theorems

General lemmas about the byte-level codecs, then one theorem (with its
counterexample and witness where applicable) per claim. -/

theorem natToBytesLE_length (k : Nat) : ∀ v, (natToBytesLE k v).length = k := by
  induction k with
  | zero => intro v; rfl
  | succ k ih => intro v; simp [natToBytesLE, ih]

theorem bytesToNatLE_natToBytesLE (k : Nat) :
    ∀ v, bytesToNatLE (natToBytesLE k v) = v % 256 ^ k := by
  induction k with
  | zero => intro v; simp [natToBytesLE, bytesToNatLE, Nat.mod_one]
  | succ k ih =>
      intro v
      have h256 : (256 : Nat) ^ (k + 1) = 256 * 256 ^ k := by ring
      simp only [natToBytesLE, bytesToNatLE, ih, h256]
      rw [Nat.mod_mul]

theorem natToBytesLE_lt (k : Nat) : ∀ v, ∀ b ∈ natToBytesLE k v, b < 256 := by
  induction k with
  | zero => intro v b hb; simp [natToBytesLE] at hb
  | succ k ih =>
      intro v b hb
      simp only [natToBytesLE, List.mem_cons] at hb
      rcases hb with h | h
      · subst h; exact Nat.mod_lt _ (by norm_num)
      · exact ih _ _ h

/-- The bounds behind a passing `assert_integer_fits` check. -/
theorem assert_integer_fits_iff (v : Int) (signed : Bool) (n : Nat) :
    assert_integer_fits v signed n = true ↔
      n ≠ 0 ∧
        (if signed then -(2 ^ (n - 1) : Int) ≤ v ∧ v ≤ 2 ^ (n - 1) - 1
         else 0 ≤ v ∧ v ≤ 2 ^ n - 1) := by
  unfold assert_integer_fits
  by_cases hn : n = 0
  · simp [hn]
  · cases signed <;> simp [hn] <;> tauto

/-- The little-endian signed/unsigned byte codec round-trips on every value
accepted by the range check. -/
theorem bytes_to_integer_integer_to_bytes (v : Int) (k : Nat) (signed : Bool)
    (bs : List Nat) (h : integer_to_bytes v k signed = some bs) :
    bytes_to_integer bs signed = v := by
  unfold integer_to_bytes at h
  by_cases hf : assert_integer_fits v signed (8 * k) = true
  · rw [if_pos hf] at h
    have hbs := Option.some.inj h
    subst hbs
    rw [assert_integer_fits_iff] at hf
    obtain ⟨hk, hf⟩ := hf
    have hNat1 : (256 : Nat) ^ k = 2 ^ (8 * k) := by
      rw [pow_mul]; norm_num
    have hNat2 : (2 : Nat) ^ (8 * k) = 2 * 2 ^ (8 * k - 1) := by
      rw [← pow_succ']
      congr 1
      omega
    have hInt1 : (((2 : Nat) ^ (8 * k) : Nat) : Int) = 2 ^ (8 * k) := by
      push_cast
      rfl
    have hInt2 : (((2 : Nat) ^ (8 * k - 1) : Nat) : Int) = 2 ^ (8 * k - 1) := by
      push_cast
      rfl
    have hInt3 : ((256 : Int)) ^ k = 2 ^ (8 * k) := by
      rw [pow_mul]; norm_num
    have hIntHalf : ((2 : Int) ^ (8 * k - 1)) * 2 = 2 ^ (8 * k) := by
      rw [← pow_succ]
      congr 1
      omega
    have hMpos : (0 : Int) < 2 ^ (8 * k) := by positivity
    have hmodlt : v % 2 ^ (8 * k) < 2 ^ (8 * k) := Int.emod_lt_of_pos v hMpos
    have hmodge : 0 ≤ v % 2 ^ (8 * k) := Int.emod_nonneg v (ne_of_gt hMpos)
    have hu : ((v % 2 ^ (8 * k)).toNat : Int) = v % 2 ^ (8 * k) :=
      Int.toNat_of_nonneg hmodge
    have hlt2 : (v % 2 ^ (8 * k)).toNat < (2 : Nat) ^ (8 * k) := by
      have hcast : ((v % 2 ^ (8 * k)).toNat : Int) < (((2 : Nat) ^ (8 * k) : Nat) : Int) := by
        rw [hu, hInt1]
        exact hmodlt
      exact_mod_cast hcast
    have hlt : (v % 2 ^ (8 * k)).toNat < 256 ^ k := by
      rw [hNat1]
      exact hlt2
    simp only [bytes_to_integer, natToBytesLE_length, bytesToNatLE_natToBytesLE,
      Nat.mod_eq_of_lt hlt]
    rw [hNat1, hInt3]
    cases signed with
    | false =>
        simp only [Bool.false_eq_true, if_false] at hf
        have hvlt : v < 2 ^ (8 * k) := by omega
        rw [Int.emod_eq_of_lt hf.1 hvlt] at hu
        rw [if_neg (by simp)]
        rw [Int.emod_eq_of_lt hf.1 hvlt]
        omega
    | true =>
        simp only [if_true] at hf
        by_cases hv : 0 ≤ v
        · have hvlt : v < 2 ^ (8 * k) := by omega
          rw [Int.emod_eq_of_lt hv hvlt] at hu ⊢
          by_cases hc : 2 ^ (8 * k) ≤ 2 * v.toNat
          · rw [if_pos ⟨rfl, hc⟩]
            omega
          · rw [if_neg (fun hcc => hc hcc.2)]
            omega
        · have hmodv : v % 2 ^ (8 * k) = v + 2 ^ (8 * k) := by
            have h1 : (v + 2 ^ (8 * k)) % 2 ^ (8 * k) = v % 2 ^ (8 * k) := by
              have hself := @Int.add_mul_emod_self_left v ((2 : Int) ^ (8 * k)) 1
              simpa using hself
            have h2 : (v + 2 ^ (8 * k)) % 2 ^ (8 * k) = v + 2 ^ (8 * k) :=
              Int.emod_eq_of_lt (by omega) (by omega)
            omega
          rw [hmodv] at hu ⊢
          by_cases hc : 2 ^ (8 * k) ≤ 2 * (v + 2 ^ (8 * k)).toNat
          · rw [if_pos ⟨rfl, hc⟩]
            omega
          · rw [if_neg (fun hcc => hc hcc.2)]
            omega
  · rw [if_neg hf] at h; exact absurd h (by simp)

theorem integer_to_bytes_isSome (v : Int) (k : Nat) (signed : Bool) :
    (integer_to_bytes v k signed).isSome = true ↔
      assert_integer_fits v signed (8 * k) = true := by
  unfold integer_to_bytes
  by_cases hf : assert_integer_fits v signed (8 * k) = true <;> simp [hf]

/-! ## Claim C10 -/

/-- C10: when `branch_probabilities` is unset, `get_branch_probability`
returns the float `1.0` for every branch index and never raises. -/
theorem C10_default_branch_probability (ats : ExplicitAts) (branch_id : Int)
    (h : ats.branch_probabilities = none) :
    ats.get_branch_probability branch_id = some (.double float_one_bits) := by
  unfold ExplicitAts.get_branch_probability
  rw [h]

def c10_ats : ExplicitAts :=
  ⟨none, .discrete, 1, 0, none, 1, [true], 1, some [0, 1], 1, some [0, 1], some [0],
   none, none, none, 0, none, none, 0, none, none, [], [], none, ⟨0, []⟩⟩

theorem C10_witness :
    c10_ats.branch_probabilities = none ∧
      c10_ats.get_branch_probability 5 = some (.double float_one_bits) :=
  ⟨rfl, C10_default_branch_probability c10_ats 5 rfl⟩

/-! ## Claim C7 -/

/-- C7 (counterexample): the claim says encoding `+2^31` as `int32`
succeeds, but the range check rejects it (`int32` tops out at `2^31 - 1`). -/
theorem C7_counterexample : fixed_size_integer_to_bytes (2 ^ 31) CommonType.int32 = none := by
  decide

/-- C7 (amended): `integer_to_bytes` checks the range before writing and
succeeds exactly on the representable range of the declared width and
signedness; for `int32` the values `±(2^31 - 1)` and `-2^31` succeed while
`+2^31` and `±2^40` fail. -/
theorem C7_fixed_integer_range_checked :
    (∀ v : Int,
      ((fixed_size_integer_to_bytes v .int16).isSome = true ↔ -(2 ^ 15) ≤ v ∧ v ≤ 2 ^ 15 - 1) ∧
      ((fixed_size_integer_to_bytes v .uint16).isSome = true ↔ 0 ≤ v ∧ v ≤ 2 ^ 16 - 1) ∧
      ((fixed_size_integer_to_bytes v .int32).isSome = true ↔ -(2 ^ 31) ≤ v ∧ v ≤ 2 ^ 31 - 1) ∧
      ((fixed_size_integer_to_bytes v .uint32).isSome = true ↔ 0 ≤ v ∧ v ≤ 2 ^ 32 - 1) ∧
      ((fixed_size_integer_to_bytes v .int64).isSome = true ↔ -(2 ^ 63) ≤ v ∧ v ≤ 2 ^ 63 - 1) ∧
      ((fixed_size_integer_to_bytes v .uint64).isSome = true ↔ 0 ≤ v ∧ v ≤ 2 ^ 64 - 1)) ∧
    (fixed_size_integer_to_bytes (2 ^ 31 - 1) .int32).isSome = true ∧
    (fixed_size_integer_to_bytes (-(2 ^ 31 - 1)) .int32).isSome = true ∧
    (fixed_size_integer_to_bytes (-(2 ^ 31)) .int32).isSome = true ∧
    fixed_size_integer_to_bytes (2 ^ 31) .int32 = none ∧
    fixed_size_integer_to_bytes (2 ^ 40) .int32 = none ∧
    fixed_size_integer_to_bytes (-(2 ^ 40)) .int32 = none := by
  have h16 : ∀ v, fixed_size_integer_to_bytes v .int16 = integer_to_bytes v 2 true := fun _ => rfl
  have hu16 : ∀ v, fixed_size_integer_to_bytes v .uint16 = integer_to_bytes v 2 false := fun _ => rfl
  have h32 : ∀ v, fixed_size_integer_to_bytes v .int32 = integer_to_bytes v 4 true := fun _ => rfl
  have hu32 : ∀ v, fixed_size_integer_to_bytes v .uint32 = integer_to_bytes v 4 false := fun _ => rfl
  have h64 : ∀ v, fixed_size_integer_to_bytes v .int64 = integer_to_bytes v 8 true := fun _ => rfl
  have hu64 : ∀ v, fixed_size_integer_to_bytes v .uint64 = integer_to_bytes v 8 false := fun _ => rfl
  refine ⟨fun v => ⟨?_, ?_, ?_, ?_, ?_, ?_⟩, by decide, by decide, by decide, by decide,
    by decide, by decide⟩ <;>
    simp only [h16, hu16, h32, hu32, h64, hu64, integer_to_bytes_isSome,
      assert_integer_fits_iff] <;>
    norm_num

/-! ## Claim C5: lemmas about the CSR conversions -/

theorem adj_pairs_all_le : ∀ (l : List Int), chain_le l = true →
    (adj_pairs l).all (fun p => decide (p.1 ≤ p.2)) = true
  | [], _ => rfl
  | [_], _ => rfl
  | a :: b :: t, h => by
      simp only [chain_le, Bool.and_eq_true] at h
      simp only [adj_pairs, List.all_cons, Bool.and_eq_true]
      exact ⟨h.1, adj_pairs_all_le (b :: t) h.2⟩

theorem adj_pairs_chain_link : ∀ (l : List Int), chain_link (adj_pairs l) = true
  | [] => rfl
  | [_] => rfl
  | [_, _] => rfl
  | a :: b :: c :: t => by
      show (decide (b = b) && chain_link (adj_pairs (b :: c :: t))) = true
      have hb : decide (b = b) = true := by simp
      rw [hb, Bool.true_and]
      exact adj_pairs_chain_link (b :: c :: t)

theorem adj_pairs_reassemble : ∀ (a b : Int) (t : List Int),
    ∃ last, (adj_pairs (a :: b :: t)).getLast? = some last ∧
      (adj_pairs (a :: b :: t)).map Prod.fst ++ [last.2] = a :: b :: t
  | a, b, [] => ⟨(a, b), rfl, rfl⟩
  | a, b, c :: t => by
      obtain ⟨last, h1, h2⟩ := adj_pairs_reassemble b c t
      have hshape : adj_pairs (a :: b :: c :: t) = (a, b) :: adj_pairs (b :: c :: t) := rfl
      have hne : adj_pairs (b :: c :: t) = (b, c) :: adj_pairs (c :: t) := rfl
      refine ⟨last, ?_, ?_⟩
      · rw [hshape, hne, List.getLast?_cons_cons, ← hne, h1]
      · rw [hshape, List.map_cons, List.cons_append, h2]

theorem adj_pairs_of_ranges : ∀ (r : List (Int × Int)), chain_link r = true →
    ∀ e, r.getLast? = some e → adj_pairs (r.map Prod.fst ++ [e.2]) = r
  | [], _, e, he => by simp at he
  | [p], _, e, he => by
      simp only [List.getLast?_singleton, Option.some.injEq] at he
      subst he
      rfl
  | p :: q :: rest, h, e, he => by
      simp only [chain_link, Bool.and_eq_true, decide_eq_true_eq] at h
      rw [List.getLast?_cons_cons] at he
      have ih := adj_pairs_of_ranges (q :: rest) h.2 e he
      show adj_pairs (p.1 :: (q.1 :: rest.map Prod.fst ++ [e.2])) = p :: q :: rest
      show (p.1, q.1) :: adj_pairs (q.1 :: (rest.map Prod.fst ++ [e.2])) = p :: q :: rest
      have hp : (p.1, q.1) = p := by
        rw [← h.1]
      rw [hp]
      have : adj_pairs (q.1 :: (rest.map Prod.fst ++ [e.2])) = q :: rest := ih
      rw [this]

theorem ranges_csr_chain_le : ∀ (r : List (Int × Int)),
    r.all (fun p => decide (p.1 ≤ p.2)) = true → chain_link r = true →
    ∀ e, r.getLast? = some e → chain_le (r.map Prod.fst ++ [e.2]) = true
  | [], _, _, e, he => by simp at he
  | [p], hall, _, e, he => by
      simp only [List.getLast?_singleton, Option.some.injEq] at he
      simp only [List.all_cons, List.all_nil, Bool.and_true] at hall
      show (decide (p.1 ≤ e.2) && chain_le [e.2]) = true
      rw [← he, hall, Bool.true_and]
      rfl
  | p :: q :: rest, hall, hlink, e, he => by
      simp only [List.all_cons, Bool.and_eq_true, decide_eq_true_eq] at hall
      simp only [chain_link, Bool.and_eq_true, decide_eq_true_eq] at hlink
      rw [List.getLast?_cons_cons] at he
      have ih := ranges_csr_chain_le (q :: rest)
        (by simp only [List.all_cons, Bool.and_eq_true, decide_eq_true_eq]
            exact ⟨hall.2.1, by simpa using hall.2.2⟩)
        hlink.2 e he
      show (decide (p.1 ≤ q.1) && chain_le (q.1 :: rest.map Prod.fst ++ [e.2])) = true
      have hle : p.1 ≤ q.1 := by
        rw [← hlink.1]
        exact hall.1
      simpa [hle] using ih

/-- C5 (counterexample): `[(1, 3)]` satisfies the documented ranges
invariant (`is_vector_ranges` accepts it, as the repository's own tests
record), but converting it raises — the output `[1, 3]` fails
`ranges_to_csr`'s own CSR assertion because it does not start at 0.  The
claimed totality of the bijection on the validity domains therefore fails. -/
theorem C5_counterexample :
    is_vector_ranges [((1 : Int), (3 : Int))] = true ∧
      ranges_to_csr [((1 : Int), (3 : Int))] = none := by
  decide

/-- C5 (amended): on valid CSR vectors the round trip
`ranges_to_csr ∘ csr_to_ranges` is the identity; on valid ranges vectors the
round trip `csr_to_ranges ∘ ranges_to_csr` is the identity *provided the
first range starts at 0* (otherwise `ranges_to_csr` raises on its own output
check); invalid inputs raise on entry. -/
theorem C5_csr_ranges_roundtrip :
    (∀ csr : List Int, is_vector_csr csr = true →
        (csr_to_ranges csr).bind ranges_to_csr = some csr) ∧
    (∀ r : List (Int × Int), is_vector_ranges r = true →
        (r.map Prod.fst).head? = some 0 →
        (ranges_to_csr r).bind csr_to_ranges = some r) ∧
    (∀ r : List (Int × Int), is_vector_ranges r = true →
        (r.map Prod.fst).head? ≠ some 0 → ranges_to_csr r = none) ∧
    (∀ csr : List Int, is_vector_csr csr = false → csr_to_ranges csr = none) ∧
    (∀ r : List (Int × Int), is_vector_ranges r = false → ranges_to_csr r = none) := by
  have hvalid_ranges : ∀ csr : List Int, is_vector_csr csr = true →
      is_vector_ranges (adj_pairs csr) = true := by
    intro csr h
    have hch : chain_le csr = true := by
      simp only [is_vector_csr, Bool.and_eq_true] at h
      exact h.2
    match csr, h with
    | a :: b :: t, h =>
        simp only [is_vector_ranges, Bool.and_eq_true]
        refine ⟨⟨?_, adj_pairs_all_le _ hch⟩, adj_pairs_chain_link _⟩
        show (!(((a, b) :: adj_pairs (b :: t)).isEmpty)) = true
        simp [List.isEmpty]
  have hbuild : ∀ (r : List (Int × Int)) (e : (Int × Int)), is_vector_ranges r = true →
      r.getLast? = some e →
      ranges_to_csr r = if is_vector_csr (r.map Prod.fst ++ [e.2]) = true
        then some (r.map Prod.fst ++ [e.2]) else none := by
    intro r e hr he
    unfold ranges_to_csr
    rw [if_pos hr, he]
  refine ⟨?_, ?_, ?_, ?_, ?_⟩
  · intro csr h
    have hr := hvalid_ranges csr h
    have h1 : csr_to_ranges csr = some (adj_pairs csr) := by
      unfold csr_to_ranges
      rw [if_pos h, if_pos hr]
    rw [h1, Option.some_bind]
    match csr, h, hr with
    | a :: b :: t, h, hr =>
        obtain ⟨last, hlast, hre⟩ := adj_pairs_reassemble a b t
        rw [hbuild _ last hr hlast, hre, if_pos h]
  · intro r hr hhead
    simp only [is_vector_ranges, Bool.and_eq_true] at hr
    obtain ⟨⟨hne, hall⟩, hlink⟩ := hr
    match r, hne, hall, hlink, hhead with
    | p :: rest, hne, hall, hlink, hhead =>
        obtain ⟨e, he⟩ : ∃ e, (p :: rest).getLast? = some e :=
          ⟨(p :: rest).getLast (by simp), List.getLast?_eq_getLast (p :: rest) (by simp)⟩
        have hcsr : is_vector_csr ((p :: rest).map Prod.fst ++ [e.2]) = true := by
          simp only [is_vector_csr, Bool.and_eq_true]
          refine ⟨⟨?_, ?_⟩, ranges_csr_chain_le _ hall hlink e he⟩
          · simp only [List.length_append, List.length_map, decide_eq_true_eq,
              List.length_cons]
            simp
          · simp only [List.map_cons, List.cons_append, List.head?_cons,
              decide_eq_true_eq]
            simpa using hhead
        have hranges : is_vector_ranges (p :: rest) = true := by
          simp only [is_vector_ranges, Bool.and_eq_true]
          exact ⟨⟨hne, hall⟩, hlink⟩
        rw [hbuild _ e hranges he, if_pos hcsr, Option.some_bind]
        unfold csr_to_ranges
        rw [if_pos hcsr, adj_pairs_of_ranges _ hlink e he, if_pos hranges]
  · intro r hr hhead
    have hr2 := hr
    simp only [is_vector_ranges, Bool.and_eq_true] at hr2
    obtain ⟨⟨hne, _⟩, _⟩ := hr2
    match r, hne, hr, hhead with
    | p :: rest, hne, hr, hhead =>
        obtain ⟨e, he⟩ : ∃ e, (p :: rest).getLast? = some e :=
          ⟨(p :: rest).getLast (by simp), List.getLast?_eq_getLast (p :: rest) (by simp)⟩
        rw [hbuild _ e hr he]
        have hcsr : is_vector_csr ((p :: rest).map Prod.fst ++ [e.2]) = false := by
          unfold is_vector_csr
          have hh : decide (((p :: rest).map Prod.fst ++ [e.2]).head? = some 0) = false := by
            simp only [List.map_cons, List.cons_append, List.head?_cons]
            simpa using hhead
          rw [hh]
          simp
        rw [if_neg (by rw [hcsr]; simp)]
  · intro csr h
    unfold csr_to_ranges
    rw [if_neg (by simp [h])]
  · intro r h
    unfold ranges_to_csr
    rw [if_neg (by simp [h])]

theorem C5_witness :
    (csr_to_ranges ([0, 2, 5] : List Int)).bind ranges_to_csr = some [0, 2, 5] ∧
    (ranges_to_csr ([(0, 2), (2, 5)] : List (Int × Int))).bind csr_to_ranges =
      some [(0, 2), (2, 5)] ∧
    ranges_to_csr ([(1, 3)] : List (Int × Int)) = none ∧
    csr_to_ranges ([1, 2] : List Int) = none ∧
    ranges_to_csr ([(2, 0)] : List (Int × Int)) = none :=
  ⟨C5_csr_ranges_roundtrip.1 _ (by decide),
   C5_csr_ranges_roundtrip.2.1 _ (by decide) (by decide),
   C5_csr_ranges_roundtrip.2.2.1 _ (by decide) (by decide),
   C5_csr_ranges_roundtrip.2.2.2.1 _ (by decide),
   C5_csr_ranges_roundtrip.2.2.2.2 _ (by decide)⟩

/-! ## Claim C9 -/

theorem py_dict_get_filter {α β : Type} [DecidableEq α] (fs : List α) (f : α)
    (hf : f ∈ fs) :
    ∀ data : List (α × β),
      py_dict_get (data.filter (fun p => decide (p.1 ∈ fs))) f = py_dict_get data f
  | [] => rfl
  | (k, v) :: rest => by
      have ih := py_dict_get_filter fs f hf rest
      by_cases hk : k = f
      · subst hk
        simp [py_dict_get, List.filter_cons, hf, List.find?]
      · by_cases hmem : k ∈ fs
        · simpa [py_dict_get, List.filter_cons, hmem, hk, List.find?] using ih
        · simpa [py_dict_get, List.filter_cons, hmem, hk, List.find?] using ih

/-- C9 (counterexample): with one declared field (key `0`) and an input
carrying an extra key `1`, `make_object` warns about `1` but the parsed
object holds the declared field only — the unknown key is *not* preserved. -/
theorem C9_counterexample :
    (make_object ([0] : List Nat) ([(0, 10), (1, 20)] : List (Nat × Nat))).1 = [1] ∧
    (make_object ([0] : List Nat) ([(0, 10), (1, 20)] : List (Nat × Nat))).2 =
      [(0, some 10)] ∧
    ¬ (1 ∈ ((make_object ([0] : List Nat) ([(0, 10), (1, 20)] : List (Nat × Nat))).2.map
        Prod.fst)) := by
  decide

/-- C9 (amended): parsing succeeds; a warning is issued exactly for the keys
present in the data but not declared; the parse of the declared fields is
identical to a parse of the same data with the unknown keys removed; and the
parsed object carries exactly the declared fields — the unknown keys are
dropped, not preserved. -/
theorem C9_unknown_keys_warned_and_dropped {α β : Type} [DecidableEq α]
    (schema_fields : List α) (data : List (α × β)) :
    (∀ k, k ∈ (make_object schema_fields data).1 ↔
        k ∈ data.map Prod.fst ∧ k ∉ schema_fields) ∧
    (make_object schema_fields data).2 =
      (make_object schema_fields
        (data.filter (fun p => decide (p.1 ∈ schema_fields)))).2 ∧
    (make_object schema_fields data).2.map Prod.fst = schema_fields := by
  refine ⟨?_, ?_, ?_⟩
  · intro k
    simp [make_object, List.mem_dedup, List.mem_filter]
  · unfold make_object
    simp only
    refine List.map_congr_left ?_
    intro f hf
    rw [py_dict_get_filter schema_fields f hf data]
  · unfold make_object
    simp only [List.map_map]
    have hcomp : (Prod.fst ∘ fun f => (f, py_dict_get data f)) = fun f : α => f := rfl
    rw [hcomp, List.map_id']

/-! ## Claim C2

`value_to_bytes` asserts interval values are tuples and then calls
`interval_to_bytes`, which reads `.left`/`.right` — attributes only
`Interval` objects have (and whose module cannot even import, since it names
the undefined `rational_size`).  So interval encoding raises on tuples and
on `Interval` objects alike, although the repository's own test suite
(`src/tests/io/test_bytes.py`) round-trips interval tuples.  The non-interval
scalar codecs round-trip, witnessed here on the test suite's own values. -/

theorem C2_interval_encode_raises :
    value_to_bytes (.tuple (.double 0) (.double float_one_bits)) .doubleInterval = none ∧
    value_to_bytes (.tuple (.rational ⟨1, 3⟩) (.rational ⟨2, 5⟩)) .rationalInterval = none ∧
    value_to_bytes (.interval (.double 0) (.double float_one_bits)) .doubleInterval = none ∧
    (value_to_bytes (.int 123456) .int32).bind (bytes_to_value · .int32) =
      some (.int 123456) ∧
    (value_to_bytes (.int (2 ^ 60 + 123)) .uint64).bind (bytes_to_value · .uint64) =
      some (.int (2 ^ 60 + 123)) ∧
    (value_to_bytes (.double 4614256656552045848) .double).bind (bytes_to_value · .double) =
      some (.double 4614256656552045848) ∧
    (value_to_bytes (.rational ⟨-7, 13⟩) .rational).bind (bytes_to_value · .rational) =
      some (.rational ⟨-7, 13⟩) ∧
    (value_to_bytes (.str [116, 101, 115, 116]) .string).bind (bytes_to_value · .string) =
      some (.str [116, 101, 115, 116]) := by
  decide

/-! ## Claim C4

The vector codec inherits the interval failure of `value_to_bytes`
element-wise, so a homogeneous vector of interval values cannot be encoded;
the remaining behaviour claimed — empty vectors as empty payload without
CSR, bitvectors up to the tail padding, fixed-size chunking without CSR, and
CSR chunk ranges for strings — is evaluated on concrete vectors. -/

theorem C4_vector_codec :
    vector_to_bytes [Value.tuple (.double 0) (.double float_one_bits)] .doubleInterval =
      none ∧
    (∀ t : CommonType, vector_to_bytes [] t = some ([], none)) ∧
    bytes_to_vector [] .rational none = some [] ∧
    (vector_to_bytes [.bool true, .bool false, .bool true] .bool = some ([5], none) ∧
     bytes_to_vector [5] .bool none =
       some [.bool true, .bool false, .bool true, .bool false,
             .bool false, .bool false, .bool false, .bool false]) ∧
    (vector_to_bytes [.int 1, .int 2] .int32 = some ([1, 0, 0, 0, 2, 0, 0, 0], none) ∧
     bytes_to_vector [1, 0, 0, 0, 2, 0, 0, 0] .int32 none = some [.int 1, .int 2]) ∧
    (vector_to_bytes [.str [102, 111, 111], .str [98, 97]] .string =
       some ([102, 111, 111, 98, 97], some [(0, 3), (3, 5)]) ∧
     bytes_to_vector [102, 111, 111, 98, 97] .string (some [(0, 3), (3, 5)]) =
       some [.str [102, 111, 111], .str [98, 97]]) := by
  refine ⟨by decide, ?_, by decide, ⟨by decide, by decide⟩, ⟨by decide, by decide⟩,
    ⟨by decide, by decide⟩⟩
  intro t
  cases t <;> rfl

/-! ## Claim C6 -/

/-- A structurally complete one-state ATS whose single branch targets state
5, violating invariant 3 (`target ∈ [0, N_s)`). -/
def c6_ats : ExplicitAts :=
  ⟨none, .discrete, 1, 0, none, 1, [true], 1, some [0, 1], 1, some [0, 1], some [5],
   none, none, none, 0, none, none, 0, none, none, [], [], none, ⟨0, []⟩⟩

/-- C6 (counterexample): `ExplicitAts.validate` accepts an ATS whose branch
target lies outside `[0, N_s)` — invariant 3 is not checked, so encoding is
not rejected on its account. -/
theorem C6_counterexample :
    c6_ats.branch_to_target = some [5] ∧
    c6_ats.num_states = 1 ∧
    (∀ tg ∈ [(5 : Int)], ¬ (0 ≤ tg ∧ tg < c6_ats.num_states)) ∧
    ats_validate c6_ats = some () := by
  decide

theorem option_bind_none_right {α β : Type} (x : Option α) :
    (x.bind fun _ => (none : Option β)) = none := by
  cases x <;> rfl

/-- C6 (amended): the converter runs `validate` before every encode (a
validation error aborts the encode), but `validate` checks only counts and
lengths — its verdict is entirely independent of the branch target *values*,
so an ATS with a target outside `[0, N_s)` passes and is not rejected. -/
theorem C6_validate_ignores_branch_targets (ats : ExplicitAts) (ts ts2 : List Int)
    (h : ats.branch_to_target = some ts) (hlen : ts2.length = ts.length) :
    ats_validate { ats with branch_to_target := some ts2 } = ats_validate ats ∧
    (ats_validate ats = none → explicit_ats_to_explicit_umb ats = none) := by
  constructor
  · unfold ats_validate
    simp only [h, ExplicitAts.has_state_valuations]
    rw [hlen]
  · intro hnone
    unfold explicit_ats_to_explicit_umb
    rw [hnone]
    rfl

theorem C6_witness :
    ats_validate { c6_ats with branch_to_target := some [7] } = ats_validate c6_ats ∧
    (ats_validate c6_ats = none → explicit_ats_to_explicit_umb c6_ats = none) :=
  C6_validate_ignores_branch_targets c6_ats [5] [7] rfl rfl

/-! ## Claim C1 -/

/-- A minimal valid one-state ATS (self-loop, one choice, one branch). -/
def c1_ats : ExplicitAts :=
  ⟨none, .discrete, 1, 0, none, 1, [true], 1, some [0, 1], 1, some [0, 1], some [0],
   none, none, none, 0, none, none, 0, none, none, [], [], none, ⟨0, []⟩⟩

/-- C1: the round trip `read_ats ∘ write_ats` cannot reproduce any ATS
because `write_ats` already fails on every input: after `validate` passes,
`explicit_ats_to_explicit_umb` reads `ats.num_observations` (and later
`ats.state_valuations_values`), attributes `ExplicitAts` does not declare,
raising `AttributeError` — here evaluated on a minimal valid ATS and proved
for every ATS. -/
theorem C1_write_ats_raises :
    ats_validate c1_ats = some () ∧
    explicit_ats_to_explicit_umb c1_ats = none ∧
    (∀ ats : ExplicitAts, explicit_ats_to_explicit_umb ats = none) := by
  refine ⟨by decide, by decide, ?_⟩
  intro ats
  unfold explicit_ats_to_explicit_umb
  cases ats_validate ats with
  | none => rfl
  | some u =>
      cases convert_annot_list ats.reward_annots with
      | none => rfl
      | some rc =>
          cases convert_annot_list ats.ap_annots with
          | none => rfl
          | some ac => rfl

/-! ## Claim C8: lemmas about bit lengths and byte counts -/

theorem bit_length_aux_le (fuel : Nat) :
    ∀ n k, n ≤ fuel → (bit_length_aux fuel n ≤ k ↔ n < 2 ^ k) := by
  induction fuel with
  | zero =>
      intro n k hn
      have hn0 : n = 0 := by omega
      subst hn0
      simp [bit_length_aux, Nat.pos_pow_of_pos]
  | succ fuel ih =>
      intro n k hn
      match n with
      | 0 => simp [bit_length_aux, Nat.pos_pow_of_pos]
      | m + 1 =>
          show bit_length_aux fuel ((m + 1) / 2) + 1 ≤ k ↔ m + 1 < 2 ^ k
          cases k with
          | zero =>
              constructor
              · intro h; omega
              · intro h; norm_num at h
          | succ k2 =>
              have ih2 := ih ((m + 1) / 2) k2 (by omega)
              rw [Nat.succ_le_succ_iff, ih2, pow_succ]
              exact Nat.div_lt_iff_lt_mul (by norm_num)

/-- Python `n.bit_length() ≤ k` iff `n < 2 ^ k`. -/
theorem py_bit_length_le (n k : Nat) : py_bit_length n ≤ k ↔ n < 2 ^ k :=
  bit_length_aux_le n n k le_rfl

/-- The raw (not rounded) bit count in terms of the Python bit length. -/
theorem num_bits_for_integer_false_eq (v : Int) (signed : Bool) :
    num_bits_for_integer v signed false =
      (if signed then
        (if 0 ≤ v then int_bit_length v else int_bit_length (-v - 1)) + 1
      else int_bit_length v) := by
  unfold num_bits_for_integer
  cases signed <;> simp [ge_iff_le]

/-- The rounded bit count is the raw bit count padded up to a multiple
of 8. -/
theorem num_bits_for_integer_true_eq (v : Int) (signed : Bool) :
    num_bits_for_integer v signed true =
      num_bits_for_integer v signed false +
        (if num_bits_for_integer v signed false % 8 = 0 then 0
         else 8 - num_bits_for_integer v signed false % 8) := by
  show (if (true && (num_bits_for_integer v signed false % 8 != 0)) = true then
      num_bits_for_integer v signed false + (8 - num_bits_for_integer v signed false % 8)
    else num_bits_for_integer v signed false) = _
  simp only [Bool.true_and, bne_iff_ne, ne_eq, ite_not]
  split_ifs <;> omega

/-- The byte count is the rounded bit count over 8, padded up to a multiple
of 8 bytes. -/
theorem num_bytes_for_integer_true_eq (v : Int) (signed : Bool) :
    num_bytes_for_integer v signed true =
      num_bits_for_integer v signed true / 8 +
        (if num_bits_for_integer v signed true / 8 % 8 = 0 then 0
         else 8 - num_bits_for_integer v signed true / 8 % 8) := by
  show (if (true && (num_bits_for_integer v signed true / 8 % 8 != 0)) = true then
      num_bits_for_integer v signed true / 8 +
        (8 - num_bits_for_integer v signed true / 8 % 8)
    else num_bits_for_integer v signed true / 8) = _
  simp only [Bool.true_and, bne_iff_ne, ne_eq, ite_not]
  split_ifs <;> omega

/-- `num_bytes_for_integer v signed True` is the least multiple-of-8 byte
count whose bit capacity covers the raw bit count. -/
theorem num_bytes_spec (v : Int) (signed : Bool) :
    num_bits_for_integer v signed false ≤ 8 * num_bytes_for_integer v signed true ∧
    num_bytes_for_integer v signed true % 8 = 0 ∧
    ∀ t, t % 8 = 0 → num_bits_for_integer v signed false ≤ 8 * t →
      num_bytes_for_integer v signed true ≤ t := by
  have he2 := num_bytes_for_integer_true_eq v signed
  rw [num_bits_for_integer_true_eq] at he2
  rw [he2]
  generalize num_bits_for_integer v signed false = B
  refine ⟨?_, ?_, ?_⟩
  · split_ifs <;> omega
  · split_ifs <;> omega
  · intro t ht hbt
    split_ifs <;> omega

/-- `assert_integer_fits` in terms of the Python bit length. -/
theorem fits_iff_bit_length (v : Int) (signed : Bool) (n : Nat) (hn : n ≠ 0) :
    assert_integer_fits v signed n = true ↔
      ((signed = true ∨ 0 ≤ v) ∧ num_bits_for_integer v signed false ≤ n) := by
  rw [assert_integer_fits_iff, num_bits_for_integer_false_eq]
  cases signed with
  | false =>
      simp only [Bool.false_eq_true, if_false, false_or]
      unfold int_bit_length
      have hpn : ((2 ^ n : Nat) : Int) = 2 ^ n := by push_cast; rfl
      constructor
      · rintro ⟨-, h0, h1⟩
        refine ⟨h0, ?_⟩
        rw [py_bit_length_le]
        have hna : (v.natAbs : Int) = v := Int.natAbs_of_nonneg h0
        have : (v.natAbs : Int) < ((2 ^ n : Nat) : Int) := by rw [hna, hpn]; omega
        exact_mod_cast this
      · rintro ⟨h0, hbl⟩
        rw [py_bit_length_le] at hbl
        have hna : (v.natAbs : Int) = v := Int.natAbs_of_nonneg h0
        have hc : ((v.natAbs : Nat) : Int) < ((2 ^ n : Nat) : Int) := by exact_mod_cast hbl
        rw [hna, hpn] at hc
        exact ⟨hn, h0, by omega⟩
  | true =>
      simp only [if_true, true_or, true_and]
      unfold int_bit_length
      have hpow : ((2 ^ (n - 1) : Nat) : Int) = 2 ^ (n - 1) := by push_cast; rfl
      by_cases hv : 0 ≤ v
      · rw [if_pos hv]
        constructor
        · rintro ⟨-, h1, h2⟩
          have : py_bit_length v.natAbs ≤ n - 1 := by
            rw [py_bit_length_le]
            have hna : (v.natAbs : Int) = v := Int.natAbs_of_nonneg hv
            have : (v.natAbs : Int) < ((2 ^ (n - 1) : Nat) : Int) := by rw [hpow]; omega
            exact_mod_cast this
          omega
        · intro hbl
          have hb2 : py_bit_length v.natAbs ≤ n - 1 := by omega
          rw [py_bit_length_le] at hb2
          have hna : (v.natAbs : Int) = v := Int.natAbs_of_nonneg hv
          have hc : ((v.natAbs : Nat) : Int) < ((2 ^ (n - 1) : Nat) : Int) := by
            exact_mod_cast hb2
          rw [hpow] at hc
          refine ⟨hn, by omega, by omega⟩
      · rw [if_neg hv]
        have hna : ((-v - 1).natAbs : Int) = -v - 1 := Int.natAbs_of_nonneg (by omega)
        constructor
        · rintro ⟨-, h1, h2⟩
          have : py_bit_length (-v - 1).natAbs ≤ n - 1 := by
            rw [py_bit_length_le]
            have : ((-v - 1).natAbs : Int) < ((2 ^ (n - 1) : Nat) : Int) := by
              rw [hpow]; omega
            exact_mod_cast this
          omega
        · intro hbl
          have hb2 : py_bit_length (-v - 1).natAbs ≤ n - 1 := by omega
          rw [py_bit_length_le] at hb2
          have hc : (((-v - 1).natAbs : Nat) : Int) < ((2 ^ (n - 1) : Nat) : Int) := by
            exact_mod_cast hb2
          rw [hpow] at hc
          have h2n : (0 : Int) < 2 ^ (n - 1) := by positivity
          refine ⟨hn, by omega, by omega⟩

theorem integer_to_bytes_of_fits (v : Int) (k : Nat) (signed : Bool)
    (h : assert_integer_fits v signed (8 * k) = true) :
    ∃ bs, integer_to_bytes v k signed = some bs ∧ bs.length = k ∧
      bytes_to_integer bs signed = v ∧ (∀ b ∈ bs, b < 256) := by
  refine ⟨natToBytesLE k (v % (2 ^ (8 * k) : Int)).toNat, ?_, natToBytesLE_length k _, ?_,
    natToBytesLE_lt k _⟩
  · unfold integer_to_bytes
    rw [if_pos h]
  · exact bytes_to_integer_integer_to_bytes v k signed _ (by unfold integer_to_bytes; rw [if_pos h])

/-- The behaviour of the whole rational codec on a normalized fraction:
normalization is the identity, the minimal term size is the least
multiple-of-8 byte count fitting both words, smaller supplied term sizes
raise, accepted ones produce the two words, and `rational_pack` frames the
auto-sized form with a `uint16` prefix. -/
theorem rational_codec_spec (f : Fraction) (hf : f.normalized) :
    normalize_rational f = f ∧
    ∀ m, m = num_bytes_for_rational f / 2 →
      (m % 8 = 0 ∧
       assert_integer_fits f.num true (8 * m) = true ∧
       assert_integer_fits f.den false (8 * m) = true ∧
       (∀ t, t % 8 = 0 → assert_integer_fits f.num true (8 * t) = true →
          assert_integer_fits f.den false (8 * t) = true → m ≤ t)) ∧
      (∀ ts, ts < m → rational_to_bytes f (some ts) = none) ∧
      (∀ ts, m ≤ ts → ∃ nb db,
        rational_to_bytes f (some ts) = some (nb ++ db) ∧
        nb.length = ts ∧ db.length = ts ∧
        bytes_to_integer nb true = f.num ∧ bytes_to_integer db false = f.den) ∧
      (∃ nb db, rational_to_bytes f none = some (nb ++ db) ∧
        nb.length = m ∧ db.length = m ∧
        bytes_to_integer nb true = f.num ∧ bytes_to_integer db false = f.den ∧
        (∀ b ∈ nb, b < 256) ∧ (∀ b ∈ db, b < 256) ∧
        (m < 2 ^ 16 → rational_pack f = some (natToBytesLE 2 m ++ (nb ++ db)))) := by
  obtain ⟨hden, hgcd⟩ := hf
  have hnorm : normalize_rational f = f := by
    unfold normalize_rational
    rw [if_neg (by omega)]
  refine ⟨hnorm, ?_⟩
  intro m hm
  have hspecN := num_bytes_spec f.num true
  have hspecD := num_bytes_spec f.den false
  have hrat2 : num_bytes_for_rational f = max (num_bytes_for_integer f.num true true)
      (num_bytes_for_integer f.den false true) * 2 := rfl
  have hmmax : m = max (num_bytes_for_integer f.num true true)
      (num_bytes_for_integer f.den false true) := by
    rw [hm, hrat2]
    omega
  have hblden : 1 ≤ num_bits_for_integer f.den false false := by
    rw [num_bits_for_integer_false_eq]
    simp only [Bool.false_eq_true, if_false]
    unfold int_bit_length
    by_contra hc
    push_neg at hc
    have h0 : py_bit_length f.den.natAbs ≤ 0 := by omega
    rw [py_bit_length_le] at h0
    simp only [pow_zero, Nat.lt_one_iff] at h0
    omega
  have hm8 : 8 ≤ m := by
    have h1 := hspecD.1
    have h2 := hspecD.2.1
    omega
  have hm0 : m ≠ 0 := by omega
  have hfits : ∀ t, m ≤ t →
      assert_integer_fits f.num true (8 * t) = true ∧
      assert_integer_fits f.den false (8 * t) = true := by
    intro t ht
    constructor
    · rw [fits_iff_bit_length _ _ _ (by omega)]
      refine ⟨Or.inl rfl, ?_⟩
      have := hspecN.1
      omega
    · rw [fits_iff_bit_length _ _ _ (by omega)]
      refine ⟨Or.inr (by omega), ?_⟩
      have := hspecD.1
      omega
  have hto : ∀ ts, m ≤ ts → ∃ nb db,
      rational_to_bytes f (some ts) = some (nb ++ db) ∧
      nb.length = ts ∧ db.length = ts ∧
      bytes_to_integer nb true = f.num ∧ bytes_to_integer db false = f.den := by
    intro ts hts
    obtain ⟨hfn, hfd⟩ := hfits ts hts
    obtain ⟨nb, hnb, hnblen, hnbdec, -⟩ := integer_to_bytes_of_fits f.num ts true hfn
    obtain ⟨db, hdb, hdblen, hdbdec, -⟩ := integer_to_bytes_of_fits f.den ts false hfd
    refine ⟨nb, db, ?_, hnblen, hdblen, hnbdec, hdbdec⟩
    unfold rational_to_bytes
    rw [hnorm]
    simp only [Option.getD_some, Option.isSome_some, Bool.true_and]
    rw [← hm, if_neg (by simp; omega), hnb, hdb]
    rfl
  refine ⟨⟨?_, (hfits m le_rfl).1, (hfits m le_rfl).2, ?_⟩, ?_, hto, ?_⟩
  · have h1 := hspecN.2.1
    have h2 := hspecD.2.1
    omega
  · intro t ht hfn hfd
    have ht0 : t ≠ 0 := by
      rintro rfl
      rw [assert_integer_fits_iff] at hfn
      exact hfn.1 (by norm_num)
    rw [fits_iff_bit_length f.num true (8 * t) (by omega)] at hfn
    rw [fits_iff_bit_length f.den false (8 * t) (by omega)] at hfd
    have hN := hspecN.2.2 t ht hfn.2
    have hD := hspecD.2.2 t ht hfd.2
    omega
  · intro ts hts
    unfold rational_to_bytes
    rw [hnorm]
    simp only [Option.getD_some, Option.isSome_some, Bool.true_and]
    rw [← hm, if_pos (by simpa using hts)]
  · obtain ⟨hfn, hfd⟩ := hfits m le_rfl
    obtain ⟨nb, hnb, hnblen, hnbdec2, hnbB⟩ := integer_to_bytes_of_fits f.num m true hfn
    obtain ⟨db, hdb, hdblen, hdbdec2, hdbB⟩ := integer_to_bytes_of_fits f.den m false hfd
    have hbs : rational_to_bytes f none = some (nb ++ db) := by
      unfold rational_to_bytes
      rw [hnorm]
      simp only [Option.getD_none, Option.isSome_none, Bool.false_and, Bool.false_eq_true,
        if_false]
      rw [← hm, hnb, hdb]
      rfl
    refine ⟨nb, db, hbs, hnblen, hdblen, hnbdec2, hdbdec2, hnbB, hdbB, ?_⟩
    intro hm16
    have hlen2 : (nb ++ db).length / 2 = m := by
      simp [hnblen, hdblen]
      omega
    have hfits16 : assert_integer_fits (m : Int) false (8 * 2) = true := by
      rw [assert_integer_fits_iff]
      refine ⟨by omega, ?_⟩
      simp only [if_neg (by simp : ¬ (false = true))]
      constructor
      · positivity
      · have : ((m : Int)) < ((2 ^ 16 : Nat) : Int) := by exact_mod_cast hm16
        push_cast at this
        omega
    have hpfx : integer_to_bytes (m : Int) 2 false = some (natToBytesLE 2 m) := by
      unfold integer_to_bytes
      rw [if_pos hfits16]
      congr 1
      have hlt : (m : Int) < 2 ^ (8 * 2) := by
        have : ((m : Int)) < ((2 ^ 16 : Nat) : Int) := by exact_mod_cast hm16
        push_cast at this
        norm_num
        omega
      rw [Int.emod_eq_of_lt (by positivity) hlt]
      simp
    have hstep : rational_pack f =
        Option.bind (integer_to_bytes (((nb ++ db).length / 2 : Nat) : Int) 2 false)
          (fun prefix_bytes => some (prefix_bytes ++ (nb ++ db))) := by
      simp only [rational_pack, hnorm, hbs]
      rfl
    rw [hstep, hlen2, hpfx]
    rfl

/-- C8: the rational codec first normalizes (a no-op on constructor-produced
fractions), chooses the term size as the least multiple-of-8 byte count that
fits both the signed numerator and the unsigned denominator, rejects any
smaller supplied `term_size`, writes the two equal-sized words at any
accepted `term_size`, and frames the standalone form with a little-endian
`uint16` prefix holding the term size. -/
theorem C8_rational_encoding (f : Fraction) (hf : f.normalized) :
    normalize_rational f = f ∧
    ∀ m, m = num_bytes_for_rational f / 2 →
      (m % 8 = 0 ∧
       assert_integer_fits f.num true (8 * m) = true ∧
       assert_integer_fits f.den false (8 * m) = true ∧
       (∀ t, t % 8 = 0 → assert_integer_fits f.num true (8 * t) = true →
          assert_integer_fits f.den false (8 * t) = true → m ≤ t)) ∧
      (∀ ts, ts < m → rational_to_bytes f (some ts) = none) ∧
      (∀ ts, m ≤ ts → ∃ nb db,
        rational_to_bytes f (some ts) = some (nb ++ db) ∧
        nb.length = ts ∧ db.length = ts ∧
        bytes_to_integer nb true = f.num ∧ bytes_to_integer db false = f.den) ∧
      (∃ bs, rational_to_bytes f none = some bs ∧ bs.length = 2 * m ∧
        (m < 2 ^ 16 → rational_pack f = some (natToBytesLE 2 m ++ bs))) := by
  obtain ⟨hnorm, h⟩ := rational_codec_spec f hf
  refine ⟨hnorm, ?_⟩
  intro m hm
  obtain ⟨hmin, hsmall, hsome, nb, db, hbs, hnl, hdl, -, -, -, -, hpack⟩ := h m hm
  exact ⟨hmin, hsmall, hsome,
    ⟨nb ++ db, hbs, by simp [hnl, hdl]; omega, hpack⟩⟩

theorem C8_witness :
    (⟨-7, 13⟩ : Fraction).normalized ∧
    num_bytes_for_rational ⟨-7, 13⟩ / 2 = 8 ∧
    rational_to_bytes (⟨-7, 13⟩ : Fraction) (some 4) = none ∧
    (∃ bs, rational_to_bytes (⟨-7, 13⟩ : Fraction) none = some bs ∧ bs.length = 16 ∧
      rational_pack (⟨-7, 13⟩ : Fraction) = some (natToBytesLE 2 8 ++ bs)) := by
  have hn : (⟨-7, 13⟩ : Fraction).normalized := by decide
  have hm : num_bytes_for_rational ⟨-7, 13⟩ / 2 = 8 := by decide
  obtain ⟨-, h⟩ := C8_rational_encoding ⟨-7, 13⟩ hn
  obtain ⟨-, hsmall, -, bs, hbs, hlen, hpack⟩ := h 8 hm.symm
  exact ⟨hn, hm, hsmall 4 (by norm_num), bs, hbs, by omega, hpack (by norm_num)⟩


/-! ## Claim C3: bit-stream and machine lemmas -/

theorem natToBitsBE_length (n v : Nat) : (natToBitsBE n v).length = n := by
  simp [natToBitsBE]

theorem natToBitsBE_succ (n v : Nat) :
    natToBitsBE (n + 1) v = v.testBit n :: natToBitsBE n v := by
  unfold natToBitsBE
  rw [List.range_succ_eq_map, List.map_cons, List.map_map]
  simp only [Nat.add_sub_cancel, Nat.sub_zero]
  congr 1
  apply List.map_congr_left
  intro i hi
  simp only [Function.comp_apply]
  congr 1
  omega

theorem bitsToNatBE_fold (bits : List Bool) :
    ∀ acc, bits.foldl (fun a b => 2 * a + cond b 1 0) acc =
      acc * 2 ^ bits.length + bitsToNatBE bits := by
  induction bits with
  | nil => intro acc; simp [bitsToNatBE]
  | cons b bs ih =>
      intro acc
      show bs.foldl _ (2 * acc + cond b 1 0) = _
      rw [ih (2 * acc + cond b 1 0)]
      have hb : bitsToNatBE (b :: bs) = (cond b 1 0) * 2 ^ bs.length + bitsToNatBE bs := by
        show bs.foldl _ (2 * 0 + cond b 1 0) = _
        rw [ih (2 * 0 + cond b 1 0)]
        ring_nf
      rw [hb, List.length_cons, pow_succ]
      ring_nf

theorem bitsToNatBE_cons (b : Bool) (bs : List Bool) :
    bitsToNatBE (b :: bs) = (cond b 1 0) * 2 ^ bs.length + bitsToNatBE bs := by
  show bs.foldl _ (2 * 0 + cond b 1 0) = _
  rw [bitsToNatBE_fold bs (2 * 0 + cond b 1 0)]
  ring_nf

theorem bitsToNatBE_lt (bits : List Bool) : bitsToNatBE bits < 2 ^ bits.length := by
  induction bits with
  | nil => simp [bitsToNatBE]
  | cons b bs ih =>
      rw [bitsToNatBE_cons, List.length_cons, pow_succ]
      cases b <;> simp <;> omega

theorem mod_pow_succ_two (v n : Nat) :
    v % 2 ^ (n + 1) = v % 2 ^ n + 2 ^ n * (v / 2 ^ n % 2) := by
  rw [pow_succ, Nat.mod_mul]

theorem bitsToNatBE_natToBitsBE (n v : Nat) :
    bitsToNatBE (natToBitsBE n v) = v % 2 ^ n := by
  induction n with
  | zero => simp [natToBitsBE, bitsToNatBE, Nat.mod_one]
  | succ n ih =>
      rw [natToBitsBE_succ, bitsToNatBE_cons, natToBitsBE_length, ih,
        mod_pow_succ_two, Nat.testBit_to_div_mod]
      rcases Nat.mod_two_eq_zero_or_one (v / 2 ^ n) with h | h <;> rw [h] <;> simp <;> omega

theorem natToBitsBE_mod (n v : Nat) : natToBitsBE n (v % 2 ^ n) = natToBitsBE n v := by
  unfold natToBitsBE
  apply List.map_congr_left
  intro i hi
  rw [List.mem_range] at hi
  rw [Nat.testBit_mod_two_pow]
  simp [show n - 1 - i < n from by omega]

theorem natToBitsBE_congr (n v w : Nat) (h : v % 2 ^ n = w % 2 ^ n) :
    natToBitsBE n v = natToBitsBE n w := by
  rw [← natToBitsBE_mod n v, h, natToBitsBE_mod]

theorem natToBitsBE_bitsToNatBE (bits : List Bool) :
    natToBitsBE bits.length (bitsToNatBE bits) = bits := by
  induction bits with
  | nil => rfl
  | cons b bs ih =>
      rw [List.length_cons, natToBitsBE_succ, bitsToNatBE_cons]
      have hval := bitsToNatBE_lt bs
      have h1 : ((cond b 1 0) * 2 ^ bs.length + bitsToNatBE bs).testBit bs.length = b := by
        rw [Nat.testBit_to_div_mod]
        have hdiv : ((cond b 1 0) * 2 ^ bs.length + bitsToNatBE bs) / 2 ^ bs.length
            = cond b 1 0 := by
          rw [mul_comm, Nat.mul_add_div (by positivity), Nat.div_eq_of_lt hval]
          omega
        rw [hdiv]
        cases b <;> simp
      have h2 : natToBitsBE bs.length ((cond b 1 0) * 2 ^ bs.length + bitsToNatBE bs)
          = bs := by
        rw [natToBitsBE_congr bs.length _ (bitsToNatBE bs)
          (by rw [mul_comm, Nat.mul_add_mod]), ih]
      rw [h1, h2]

theorem byteBitsBE_length (b : Nat) : (byteBitsBE b).length = 8 := natToBitsBE_length 8 b

theorem byteBitsBE_of_bits (bits : List Bool) (h : bits.length = 8) :
    byteBitsBE (bitsToNatBE bits) = bits := by
  unfold byteBitsBE
  rw [← h, natToBitsBE_bitsToNatBE]

theorem bitsToNatBE_byteBitsBE (b : Nat) (h : b < 256) :
    bitsToNatBE (byteBitsBE b) = b := by
  unfold byteBitsBE
  rw [bitsToNatBE_natToBitsBE]
  exact Nat.mod_eq_of_lt h

theorem revFlat_nil : revFlat [] = [] := rfl

theorem revFlat_cons (b : Nat) (bs : List Nat) :
    revFlat (b :: bs) = revFlat bs ++ byteBitsBE b := by
  simp [revFlat]

theorem revFlat_append (xs ys : List Nat) :
    revFlat (xs ++ ys) = revFlat ys ++ revFlat xs := by
  simp [revFlat]

theorem revFlat_snoc (bs : List Nat) (b : Nat) :
    revFlat (bs ++ [b]) = byteBitsBE b ++ revFlat bs := by
  rw [revFlat_append]
  rfl

theorem revFlat_singleton (b : Nat) : revFlat [b] = byteBitsBE b := by
  simp [revFlat]

theorem revFlat_length (bs : List Nat) : (revFlat bs).length = 8 * bs.length := by
  induction bs with
  | nil => rfl
  | cons b rest ih => rw [revFlat_cons, List.length_append, ih, byteBitsBE_length]; simp; ring

theorem revFlat_inj (xs : List Nat) :
    ∀ ys : List Nat, (∀ b ∈ xs, b < 256) → (∀ b ∈ ys, b < 256) →
      xs.length = ys.length → revFlat xs = revFlat ys → xs = ys := by
  induction xs with
  | nil =>
      intro ys _ _ hlen _
      exact (List.length_eq_zero.mp hlen.symm).symm
  | cons x xs ih =>
      intro ys hx hy hlen hflat
      match ys with
      | [] => simp at hlen
      | y :: ys =>
          rw [revFlat_cons, revFlat_cons] at hflat
          have hlen2 : xs.length = ys.length := by simpa using hlen
          have hpre : (revFlat xs).length = (revFlat ys).length := by
            rw [revFlat_length, revFlat_length, hlen2]
          obtain ⟨h1, h2⟩ := List.append_inj hflat hpre
          have hxy : x = y := by
            have := congrArg bitsToNatBE h2
            rwa [bitsToNatBE_byteBitsBE x (hx x (by simp)),
              bitsToNatBE_byteBitsBE y (hy y (by simp))] at this
          rw [hxy, ih ys (fun b hb => hx b (by simp [hb]))
            (fun b hb => hy b (by simp [hb])) hlen2 h1]

theorem revFlat_suffix_split (u c : List Nat) (t : List Bool)
    (h : revFlat u = t ++ revFlat c) (hu : ∀ b ∈ u, b < 256) (hc : ∀ b ∈ c, b < 256) :
    ∃ u2, u = c ++ u2 ∧ revFlat u2 = t := by
  have hlen : 8 * u.length = t.length + 8 * c.length := by
    have := congrArg List.length h
    rwa [revFlat_length, List.length_append, revFlat_length] at this
  have hcu : c.length ≤ u.length := by omega
  have hsplit : u = u.take c.length ++ u.drop c.length := (List.take_append_drop _ u).symm
  have hflat : revFlat (u.drop c.length) ++ revFlat (u.take c.length)
      = t ++ revFlat c := by
    rw [← revFlat_append, ← hsplit, h]
  have hsuf : (revFlat (u.take c.length)).length = (revFlat c).length := by
    rw [revFlat_length, revFlat_length, List.length_take]
    omega
  have hpre : (revFlat (u.drop c.length)).length = t.length := by
    rw [revFlat_length, List.length_drop]
    omega
  obtain ⟨h1, h2⟩ := List.append_inj hflat hpre
  have htake : u.take c.length = c := by
    apply revFlat_inj _ _ (fun b hb => hu b (List.mem_of_mem_take hb)) hc
    · rw [List.length_take]; omega
    · exact h2
  refine ⟨u.drop c.length, ?_, h1⟩
  conv_lhs => rw [hsplit]
  rw [htake]

theorem append_suffix_split {α : Type} (A B P c : List α) (k : Nat) (hk : c.length = k)
    (hkB : k ≤ B.length) (h : A ++ B = P ++ c) :
    B.drop (B.length - k) = c ∧ A ++ B.take (B.length - k) = P := by
  have hsplit : A ++ B = (A ++ B.take (B.length - k)) ++ B.drop (B.length - k) := by
    rw [List.append_assoc, List.take_append_drop]
  rw [hsplit] at h
  have hlen : (B.drop (B.length - k)).length = c.length := by
    rw [List.length_drop]
    omega
  obtain ⟨h1, h2⟩ := List.append_inj' h hlen
  exact ⟨h2, h1⟩

theorem flush_aux_spec : ∀ (fuel : Nat) (buf : List Bool) (out : List Nat),
    buf.length ≤ fuel →
    ∃ E, flush_aux fuel buf out = (buf.take (buf.length % 8), out ++ E) ∧
      buf.take (buf.length % 8) ++ revFlat E = buf ∧
      (∀ b ∈ E, b < 256) := by
  intro fuel
  induction fuel with
  | zero =>
      intro buf out hlen
      have hnil : buf = [] := List.length_eq_zero.mp (by omega)
      subst hnil
      exact ⟨[], by simp [flush_aux], by simp [revFlat_nil], by simp⟩
  | succ fuel ih =>
      intro buf out hlen
      by_cases h8 : 8 ≤ buf.length
      · have hstep : flush_aux (fuel + 1) buf out =
            flush_aux fuel (buf.take (buf.length - 8))
              (out ++ [bits_to_byte (buf.drop (buf.length - 8))]) := by
          rw [flush_aux, if_pos h8]
        have htl : (buf.take (buf.length - 8)).length = buf.length - 8 := by
          rw [List.length_take]
          omega
        obtain ⟨E, hE, hcons, hbound⟩ :=
          ih (buf.take (buf.length - 8)) (out ++ [bits_to_byte (buf.drop (buf.length - 8))])
            (by omega)
        have hmod : (buf.take (buf.length - 8)).length % 8 = buf.length % 8 := by
          rw [htl]
          omega
        have htt : (buf.take (buf.length - 8)).take (buf.length % 8)
            = buf.take (buf.length % 8) := by
          rw [List.take_take]
          congr 1
          omega
        have hdl : (buf.drop (buf.length - 8)).length = 8 := by
          rw [List.length_drop]
          omega
        have hbyte : byteBitsBE (bits_to_byte (buf.drop (buf.length - 8)))
            = buf.drop (buf.length - 8) := byteBitsBE_of_bits _ hdl
        refine ⟨bits_to_byte (buf.drop (buf.length - 8)) :: E, ?_, ?_, ?_⟩
        · rw [hstep, hE, hmod, htt]
          simp
        · rw [hmod, htt] at hcons
          rw [revFlat_cons]
          calc buf.take (buf.length % 8) ++ (revFlat E ++ byteBitsBE (bits_to_byte (buf.drop (buf.length - 8))))
              = (buf.take (buf.length % 8) ++ revFlat E) ++ buf.drop (buf.length - 8) := by
                rw [hbyte, List.append_assoc]
            _ = buf.take (buf.length - 8) ++ buf.drop (buf.length - 8) := by rw [hcons]
            _ = buf := List.take_append_drop _ buf
        · intro b hb
          rcases List.mem_cons.mp hb with h | h
          · subst h
            have := bitsToNatBE_lt (buf.drop (buf.length - 8))
            rw [hdl] at this
            exact this
          · exact hbound b h
      · have hstep : flush_aux (fuel + 1) buf out = (buf, out) := by
          rw [flush_aux, if_neg h8]
        have hmod : buf.length % 8 = buf.length := Nat.mod_eq_of_lt (by omega)
        refine ⟨[], ?_, ?_, by simp⟩
        · rw [hstep, hmod, List.take_length]
          simp
        · rw [hmod, List.take_length, revFlat_nil, List.append_nil]

theorem append_to_buffer_spec (s : PackState) (bits : List Bool) :
    ∃ E, append_to_buffer s bits =
        ⟨(bits ++ s.buffer).take ((bits.length + s.buffer.length) % 8),
         s.bytestring ++ E⟩ ∧
      (bits ++ s.buffer).take ((bits.length + s.buffer.length) % 8) ++ revFlat E
        = bits ++ s.buffer ∧
      (∀ b ∈ E, b < 256) := by
  obtain ⟨E, hE, hcons, hbound⟩ :=
    flush_aux_spec (bits ++ s.buffer).length (bits ++ s.buffer) s.bytestring le_rfl
  have hlen : (bits ++ s.buffer).length = bits.length + s.buffer.length :=
    List.length_append _ _
  refine ⟨E, ?_, ?_, hbound⟩
  · show flush_buffer ⟨bits ++ s.buffer, s.bytestring⟩ = _
    unfold flush_buffer
    rw [show (⟨bits ++ s.buffer, s.bytestring⟩ : PackState).buffer = bits ++ s.buffer from rfl,
      show (⟨bits ++ s.buffer, s.bytestring⟩ : PackState).bytestring = s.bytestring from rfl,
      hE, hlen]
  · rw [hlen] at hcons
    exact hcons

theorem prepend_bytes_eq : ∀ (bytes : List Nat) (buf : List Bool),
    prepend_bytes bytes buf = revFlat bytes ++ buf := by
  intro bytes
  induction bytes with
  | nil => intro buf; rfl
  | cons b rest ih =>
      intro buf
      show prepend_bytes rest (byteBitsBE b ++ buf) = _
      rw [ih, revFlat_cons, List.append_assoc]

theorem extract_from_buffer_eq (s s2 : UnpackState) (k : Nat)
    (h : align_buffer s k = some s2) (hk : k ≠ 0) :
    extract_from_buffer s k =
      some (s2.buffer.drop (s2.buffer.length - k),
            ⟨s2.bytestring, s2.buffer.take (s2.buffer.length - k)⟩) := by
  unfold extract_from_buffer
  rw [h]
  show (if k = 0 then
        some (s2.buffer, (⟨s2.bytestring, []⟩ : UnpackState))
      else
        some (s2.buffer.drop (s2.buffer.length - k),
              (⟨s2.bytestring, s2.buffer.take (s2.buffer.length - k)⟩ : UnpackState))) = _
  rw [if_neg hk]

theorem extract_spec (ubytes : List Nat) (ubuf : List Bool) (P c : List Bool) (k : Nat)
    (hk : c.length = k) (h0 : 0 < k)
    (hstream : revFlat ubytes ++ ubuf = P ++ c) (hbuf : ubuf.length < 8)
    (hub : ∀ b ∈ ubytes, b < 256) :
    ∃ ubytes2 ubuf2,
      extract_from_buffer ⟨ubytes, ubuf⟩ k = some (c, ⟨ubytes2, ubuf2⟩) ∧
      revFlat ubytes2 ++ ubuf2 = P ∧ ubuf2.length < 8 ∧
      (∀ b ∈ ubytes2, b < 256) := by
  have htot : 8 * ubytes.length + ubuf.length = P.length + k := by
    have := congrArg List.length hstream
    rw [List.length_append, List.length_append, revFlat_length, hk] at this
    omega
  by_cases hcase : k ≤ ubuf.length
  · have halign : align_buffer ⟨ubytes, ubuf⟩ k = some ⟨ubytes, ubuf⟩ := by
      unfold align_buffer
      rw [if_pos hcase]
    obtain ⟨hc, hP⟩ := append_suffix_split (revFlat ubytes) ubuf P c k hk hcase hstream
    refine ⟨ubytes, ubuf.take (ubuf.length - k), ?_, hP, ?_, hub⟩
    · rw [extract_from_buffer_eq _ _ k halign (by omega)]
      show some (ubuf.drop (ubuf.length - k), (⟨ubytes, ubuf.take (ubuf.length - k)⟩ : UnpackState)) = _
      rw [hc]
    · rw [List.length_take]
      omega
  · have hneed : 8 * ubytes.length ≥ k - ubuf.length := by omega
    set nd := (k - ubuf.length + 7) / 8 with hnd
    have hnd_le : nd ≤ ubytes.length := by omega
    have halign : align_buffer ⟨ubytes, ubuf⟩ k =
        some ⟨ubytes.drop nd, revFlat (ubytes.take nd) ++ ubuf⟩ := by
      unfold align_buffer
      have hng : ¬ k ≤ ubuf.length := by omega
      rw [if_neg hng]
      rw [show (⟨ubytes, ubuf⟩ : UnpackState).buffer = ubuf from rfl,
        show (⟨ubytes, ubuf⟩ : UnpackState).bytestring = ubytes from rfl]
      rw [if_neg (by omega), prepend_bytes_eq]
    set buf2 := revFlat (ubytes.take nd) ++ ubuf with hbuf2
    have hbuf2len : buf2.length = 8 * nd + ubuf.length := by
      rw [hbuf2, List.length_append, revFlat_length, List.length_take]
      omega
    have hk_le : k ≤ buf2.length := by
      rw [hbuf2len]
      omega
    have hstream2 : revFlat (ubytes.drop nd) ++ buf2 = P ++ c := by
      rw [hbuf2, ← List.append_assoc, ← revFlat_append, List.take_append_drop, hstream]
    obtain ⟨hc, hP⟩ := append_suffix_split (revFlat (ubytes.drop nd)) buf2 P c k hk hk_le
      hstream2
    refine ⟨ubytes.drop nd, buf2.take (buf2.length - k), ?_, hP, ?_, ?_⟩
    · rw [extract_from_buffer_eq _ _ k halign (by omega)]
      show some (buf2.drop (buf2.length - k), (⟨ubytes.drop nd, buf2.take (buf2.length - k)⟩ : UnpackState)) = _
      rw [hc]
    · rw [List.length_take]
      omega
    · intro b hb
      exact hub b (List.mem_of_mem_drop hb)

/-- `boolean_pack`/`boolean_unpack` round-trip at any positive size. -/
theorem boolean_codec_spec (b : Bool) (n : Nat) (hn : 0 < n) :
    boolean_pack b (some n) = some (natToBitsBE n (cond b 1 0)) ∧
    boolean_unpack (natToBitsBE n (cond b 1 0)) = b := by
  constructor
  · unfold boolean_pack
    simp only [Option.getD_some]
    rw [if_neg (by omega)]
  · unfold boolean_unpack
    rw [bitsToNatBE_natToBitsBE]
    have h2 : 1 < 2 ^ n := Nat.one_lt_two_pow (by omega)
    cases b <;> simp [Nat.mod_eq_of_lt h2]

/-- `double_pack`/`double_unpack` round-trip on 64-bit patterns. -/
theorem double_codec_spec (bits : Nat) (h : bits < 2 ^ 64) :
    double_unpack (double_pack bits) = some bits := by
  unfold double_pack double_unpack
  rw [if_pos (natToBitsBE_length 64 bits), bitsToNatBE_natToBitsBE, Nat.mod_eq_of_lt h]

/-- `integer_pack`/`integer_unpack` round-trip on every value accepted by the
range check. -/
theorem integer_codec_spec (z : Int) (n : Nat) (signed : Bool)
    (h : assert_integer_fits z signed n = true) :
    ∃ c, integer_pack z n signed = some c ∧ c.length = n ∧
      integer_unpack c signed = some z := by
  obtain ⟨hn, hrange⟩ := (assert_integer_fits_iff z signed n).mp h
  refine ⟨natToBitsBE n (z % (2 ^ n : Int)).toNat, ?_, natToBitsBE_length n _, ?_⟩
  · unfold integer_pack
    rw [if_neg hn, if_pos h]
  · unfold integer_unpack
    rw [natToBitsBE_length, if_neg hn]
    have hMpos : (0 : Int) < 2 ^ n := by positivity
    have hmodlt := Int.emod_lt_of_pos z hMpos
    have hmodge := Int.emod_nonneg z (ne_of_gt hMpos)
    have hu : ((z % 2 ^ n).toNat : Int) = z % 2 ^ n := Int.toNat_of_nonneg hmodge
    have hInt1 : (((2 : Nat) ^ n : Nat) : Int) = 2 ^ n := by push_cast; rfl
    have hlt2 : (z % 2 ^ n).toNat < 2 ^ n := by
      have : ((z % 2 ^ n).toNat : Int) < (((2 : Nat) ^ n : Nat) : Int) := by
        rw [hu, hInt1]
        exact hmodlt
      exact_mod_cast this
    rw [bitsToNatBE_natToBitsBE, Nat.mod_eq_of_lt hlt2]
    set t := (z % (2 ^ n : Int)).toNat with ht
    have hNat2 : (2 : Nat) ^ n = 2 * 2 ^ (n - 1) := by
      rw [← pow_succ']
      congr 1
      omega
    have hInt2 : (((2 : Nat) ^ (n - 1) : Nat) : Int) = 2 ^ (n - 1) := by push_cast; rfl
    have hIntHalf : ((2 : Int) ^ (n - 1)) * 2 = 2 ^ n := by
      rw [← pow_succ]
      congr 1
      omega
    cases signed with
    | false =>
        simp only [Bool.false_eq_true, if_false] at hrange
        have hvlt : z < 2 ^ n := by omega
        rw [Int.emod_eq_of_lt hrange.1 hvlt] at hu
        rw [if_neg (by simp)]
        exact congrArg some hu
    | true =>
        simp only [if_true] at hrange
        by_cases hv : 0 ≤ z
        · have hvlt : z < 2 ^ n := by omega
          rw [Int.emod_eq_of_lt hv hvlt] at hu
          by_cases hc : 2 ^ n ≤ 2 * t
          · exfalso
            have htn : (t : Int) < ((2 ^ (n - 1) : Nat) : Int) := by
              rw [hu, hInt2]
              omega
            have htn2 : t < 2 ^ (n - 1) := by exact_mod_cast htn
            omega
          · rw [if_neg (fun hcc => hc hcc.2)]
            exact congrArg some hu
        · have hmodv : z % (2 ^ n : Int) = z + 2 ^ n := by
            have h1 : (z + 2 ^ n) % (2 ^ n : Int) = z % 2 ^ n := by
              have hself := @Int.add_mul_emod_self_left z ((2 : Int) ^ n) 1
              simpa using hself
            have h2 : (z + 2 ^ n) % (2 ^ n : Int) = z + 2 ^ n :=
              Int.emod_eq_of_lt (by omega) (by omega)
            omega
          rw [hmodv] at hu
          by_cases hc : 2 ^ n ≤ 2 * t
          · rw [if_pos ⟨rfl, hc⟩]
            congr 1
            omega
          · exfalso
            apply hc
            have htn : ((2 ^ (n - 1) : Nat) : Int) ≤ (t : Int) := by
              rw [hu, hInt2]
              omega
            have htn2 : 2 ^ (n - 1) ≤ t := by exact_mod_cast htn
            omega

/-- `integer_to_bytes` of a small natural as an unsigned `uint16` word. -/
theorem integer_to_bytes_uint16 (k : Nat) (h : k < 2 ^ 16) :
    integer_to_bytes (k : Int) 2 false = some (natToBytesLE 2 k) := by
  have hfit : assert_integer_fits (k : Int) false (8 * 2) = true := by
    rw [assert_integer_fits_iff]
    refine ⟨by omega, ?_⟩
    simp only [if_neg (by simp : ¬ (false = true))]
    constructor
    · positivity
    · have : ((k : Int)) < ((2 ^ 16 : Nat) : Int) := by exact_mod_cast h
      push_cast at this
      omega
  unfold integer_to_bytes
  rw [if_pos hfit]
  congr 1
  have hlt : (k : Int) < 2 ^ (8 * 2) := by
    have : ((k : Int)) < ((2 ^ 16 : Nat) : Int) := by exact_mod_cast h
    push_cast at this
    norm_num
    omega
  rw [Int.emod_eq_of_lt (by positivity) hlt]
  simp

/-- `string_pack` emits the `uint16` length prefix followed by the bytes. -/
theorem string_pack_eq (s : List Nat) (h : s.length < 2 ^ 16) :
    string_pack s = some (natToBytesLE 2 s.length ++ s) := by
  unfold string_pack string_to_bytes fixed_size_integer_to_bytes
  show Option.bind (integer_to_bytes (s.length : Int) 2 false)
    (fun pb => some (pb ++ s)) = _
  rw [integer_to_bytes_uint16 s.length h]
  rfl

/-- `string_unpack` consumes exactly a packed non-empty string and returns
the remainder of the byte string. -/
theorem string_unpack_exact (s R : List Nat) (hne : s ≠ []) (hlen : s.length < 2 ^ 16) :
    string_unpack (natToBytesLE 2 s.length ++ s ++ R) = some (s, R) := by
  have hpl : (natToBytesLE 2 s.length).length = 2 := natToBytesLE_length 2 _
  have hsplit1 : split_bytes (natToBytesLE 2 s.length ++ s ++ R) 2 =
      some (natToBytesLE 2 s.length, s ++ R) := by
    unfold split_bytes
    have hcond : 0 < 2 ∧ 2 ≤ (natToBytesLE 2 s.length ++ s ++ R).length := by
      constructor
      · omega
      · rw [List.append_assoc, List.length_append, hpl]
        omega
    rw [if_pos hcond, List.append_assoc, List.take_left' hpl, List.drop_left' hpl]
  have hdec : bytes_to_integer (natToBytesLE 2 s.length) false = (s.length : Int) := by
    unfold bytes_to_integer
    rw [if_neg (by simp)]
    rw [bytesToNatLE_natToBytesLE]
    congr 1
    have : (256 : Nat) ^ 2 = 2 ^ 16 := by norm_num
    rw [this]
    exact Nat.mod_eq_of_lt hlen
  have hsplit2 : split_bytes (s ++ R) s.length = some (s, R) := by
    unfold split_bytes
    have hcond : 0 < s.length ∧ s.length ≤ (s ++ R).length := by
      constructor
      · exact List.length_pos.mpr hne
      · rw [List.length_append]
        omega
    rw [if_pos hcond, List.take_left, List.drop_left]
  have h3 : string_unpack (natToBytesLE 2 s.length ++ s ++ R) =
      Option.bind
        (split_bytes (s ++ R) (bytes_to_integer (natToBytesLE 2 s.length) false).toNat)
        (fun y => some (bytes_to_string y.1, y.2)) := by
    unfold string_unpack
    rw [hsplit1]
    rfl
  rw [h3, hdec, Int.toNat_natCast, hsplit2]
  rfl

/-- Python's `Fraction` constructor is the identity on already-normalized
fractions. -/
theorem Fraction.make_self (f : Fraction) (hf : f.normalized) :
    Fraction.make f.num f.den = some f := by
  obtain ⟨hden, hgcd⟩ := hf
  unfold Fraction.make
  rw [if_neg (by omega : ¬ f.den = 0)]
  show some (⟨(if f.den < 0 then (-1 : Int) else 1) * f.num / (Int.gcd f.num f.den : Int),
      (if f.den < 0 then (-1 : Int) else 1) * f.den / (Int.gcd f.num f.den : Int)⟩
      : Fraction) = some f
  rw [hgcd, if_neg (by omega : ¬ f.den < 0)]
  norm_num

/-- `rational_pack` emits a byte chunk that `rational_unpack` consumes
exactly, returning the fraction and the remainder. -/
theorem rational_chunk_spec (f : Fraction) (hf : f.normalized)
    (h16 : num_bytes_for_rational f / 2 < 2 ^ 16) :
    ∃ cb, rational_pack f = some cb ∧ (∀ b ∈ cb, b < 256) ∧
      ∀ R, rational_unpack (cb ++ R) = some (f, R) := by
  obtain ⟨-, h⟩ := rational_codec_spec f hf
  obtain ⟨-, hfitn, -, -⟩ := (h _ rfl).1
  obtain ⟨nb, db, -, hnl, hdl, hnum, hden, hnbB, hdbB, hpack⟩ := (h _ rfl).2.2.2
  set m := num_bytes_for_rational f / 2 with hm
  have hm0 : m ≠ 0 := by
    rintro h0
    rw [h0] at hfitn
    rw [assert_integer_fits_iff] at hfitn
    exact hfitn.1 (by norm_num)
  refine ⟨natToBytesLE 2 m ++ (nb ++ db), hpack h16, ?_, ?_⟩
  · intro b hb
    rcases List.mem_append.mp hb with hb | hb
    · exact natToBytesLE_lt 2 m b hb
    · rcases List.mem_append.mp hb with hb | hb
      · exact hnbB b hb
      · exact hdbB b hb
  · intro R
    have hpl : (natToBytesLE 2 m).length = 2 := natToBytesLE_length 2 _
    have hsplit1 : split_bytes ((natToBytesLE 2 m ++ (nb ++ db)) ++ R) 2 =
        some (natToBytesLE 2 m, (nb ++ db) ++ R) := by
      unfold split_bytes
      have hcond : 0 < 2 ∧ 2 ≤ ((natToBytesLE 2 m ++ (nb ++ db)) ++ R).length := by
        constructor
        · omega
        · rw [List.append_assoc, List.length_append, hpl]
          omega
      rw [if_pos hcond, List.append_assoc, List.take_left' hpl, List.drop_left' hpl]
    have hdec : bytes_to_integer (natToBytesLE 2 m) false = (m : Int) := by
      unfold bytes_to_integer
      rw [if_neg (by simp)]
      rw [bytesToNatLE_natToBytesLE]
      congr 1
      have h2 : (256 : Nat) ^ 2 = 2 ^ 16 := by norm_num
      rw [h2]
      exact Nat.mod_eq_of_lt h16
    have hlen2 : (nb ++ db).length = 2 * m := by
      rw [List.length_append, hnl, hdl]
      ring
    have hsplit2 : split_bytes ((nb ++ db) ++ R) (m * 2) = some (nb ++ db, R) := by
      unfold split_bytes
      have hlen2m : (nb ++ db).length = m * 2 := by omega
      have hcond : 0 < m * 2 ∧ m * 2 ≤ ((nb ++ db) ++ R).length := by
        constructor
        · omega
        · rw [List.length_append]
          omega
      rw [if_pos hcond, List.take_left' hlen2m, List.drop_left' hlen2m]
    have hbr : bytes_to_rational (nb ++ db) = some f := by
      show (if (nb ++ db).length % 2 = 0 then
          Fraction.make (bytes_to_integer ((nb ++ db).take ((nb ++ db).length / 2)) true)
            (bytes_to_integer ((nb ++ db).drop ((nb ++ db).length / 2)) false)
        else none) = some f
      rw [hlen2, if_pos (by omega)]
      have hmid : 2 * m / 2 = m := by omega
      rw [hmid, List.take_left' hnl, List.drop_left' hnl, hnum, hden]
      exact Fraction.make_self f hf
    have hstep1 : rational_unpack ((natToBytesLE 2 m ++ (nb ++ db)) ++ R) =
        Option.bind
          (split_bytes ((nb ++ db) ++ R)
            ((bytes_to_integer (natToBytesLE 2 m) false).toNat * 2))
          (fun y => Option.bind (bytes_to_rational y.1) (fun r => some (r, y.2))) := by
      unfold rational_unpack
      rw [hsplit1]
      rfl
    rw [hstep1, hdec, Int.toNat_natCast, hsplit2]
    have hstep2 : Option.bind (some ((nb ++ db), R))
        (fun y => Option.bind (bytes_to_rational y.1) (fun r => some (r, y.2)))
        = Option.bind (bytes_to_rational (nb ++ db)) (fun r => some (r, R)) := rfl
    rw [hstep2, hbr]
    rfl

/-- Inserting a fresh key into the record appends it. -/
theorem dict_insert_fresh (acc : List (Nat × Value)) (k : Nat) (v : Value)
    (h : acc.all (fun p => p.1 ≠ k) = true) :
    dict_insert acc k v = acc ++ [(k, v)] := by
  unfold dict_insert
  rw [if_neg]
  intro hany
  rw [List.any_eq_true] at hany
  obtain ⟨p, hp, hpk⟩ := hany
  rw [List.all_eq_true] at h
  have h2 := h p hp
  simp only [decide_eq_true_eq] at h2 hpk
  exact h2 hpk

/-- Dict lookup on a cons cell. -/
theorem lookup_value_cons (p : Nat × Value) (t : List (Nat × Value)) (k : Nat) :
    lookup_value (p :: t) k = if p.1 = k then some p.2 else lookup_value t k := by
  unfold lookup_value
  by_cases h : p.1 = k
  · rw [if_pos h, List.find?_cons_of_pos _ (by simp [h])]
    rfl
  · rw [if_neg h, List.find?_cons_of_neg _ (by simp [h])]

/-- Keys not named by the field list do not influence the reconstructed
record. -/
theorem attr_pairs_skip (rest : List StructField) (k : Nat) (v : Value) :
    ∀ (vals : List (Nat × Value)), (∀ n ∈ attr_names rest, n ≠ k) →
    attr_pairs rest ((k, v) :: vals) = attr_pairs rest vals := by
  induction rest with
  | nil => intro vals _; rfl
  | cons fld r2 ih =>
      intro vals h
      match fld with
      | .padding p =>
          show attr_pairs r2 ((k, v) :: vals) = attr_pairs r2 vals
          exact ih vals (fun n hn => h n hn)
      | .attr a =>
          have hane : ¬ (k = a.name) := by
            intro he
            exact h a.name (by simp [attr_names]) he.symm
          have hrest : ∀ n ∈ attr_names r2, n ≠ k := by
            intro n hn
            exact h n (by simp [attr_names, hn])
          show (match lookup_value ((k, v) :: vals) a.name with
            | some v2 => (a.name, v2) :: attr_pairs r2 ((k, v) :: vals)
            | none => attr_pairs r2 ((k, v) :: vals)) = _
          rw [lookup_value_cons]
          show (match (if (k, v).1 = a.name then some (k, v).2 else lookup_value vals a.name) with
            | some v2 => (a.name, v2) :: attr_pairs r2 ((k, v) :: vals)
            | none => attr_pairs r2 ((k, v) :: vals)) = _
          rw [if_neg hane, ih vals hrest]
          rfl

/-- When the record lists exactly the attribute names, in order and without
repetition, the reconstructed record is the record itself. -/
theorem attr_pairs_eq_self : ∀ (F : List StructField) (vals : List (Nat × Value)),
    vals.map Prod.fst = attr_names F → (attr_names F).Nodup →
    attr_pairs F vals = vals := by
  intro F
  induction F with
  | nil =>
      intro vals hkeys _
      have h0 : vals = [] := List.map_eq_nil.mp hkeys
      subst h0
      rfl
  | cons fld rest ih =>
      intro vals hkeys hnd
      match fld with
      | .padding p => exact ih vals hkeys hnd
      | .attr a =>
          have hnames : attr_names (.attr a :: rest) = a.name :: attr_names rest := rfl
          rw [hnames] at hkeys hnd
          match vals with
          | [] => simp at hkeys
          | q :: vals2 =>
              rw [List.map_cons] at hkeys
              obtain ⟨hq1, hkeys2⟩ := List.cons_eq_cons.mp hkeys
              obtain ⟨hnotin, hnd2⟩ := List.nodup_cons.mp hnd
              have hlk : lookup_value (q :: vals2) a.name = some q.2 := by
                rw [lookup_value_cons, if_pos hq1]
              show (match lookup_value (q :: vals2) a.name with
                | some v2 => (a.name, v2) :: attr_pairs rest (q :: vals2)
                | none => attr_pairs rest (q :: vals2)) = q :: vals2
              rw [hlk]
              have hq : q = (a.name, q.2) := by
                rw [← hq1]
              have hskip : attr_pairs rest (q :: vals2) = attr_pairs rest vals2 := by
                rw [hq]
                apply attr_pairs_skip
                intro n hn hna
                exact hnotin (hna ▸ hn)
              rw [hskip, ih vals2 hkeys2 hnd2, ← hq1]


/-- Induction step for a padding field: the packer appends zero bits, the
unpacker skips the same number of bits. -/
theorem pack_unpack_padding (rest : List StructField) (vals : List (Nat × Value))
    (sp : PackState) (p : Nat) (hp : 0 < p)
    (hbuf : sp.buffer.length < 8)
    (hvals : values_ok rest vals = true)
    (hlay : layout_ok rest ((sp.buffer.length + p) % 8) = true)
    (ih : ∀ (vals2 : List (Nat × Value)) (sp2 : PackState),
        values_ok rest vals2 = true → layout_ok rest sp2.buffer.length = true →
        sp2.buffer.length < 8 → PackUnpackGoal rest vals2 sp2) :
    PackUnpackGoal (.padding p :: rest) vals sp := by
  obtain ⟨E1, hE1, hE1cons, hE1b⟩ := append_to_buffer_spec sp (natToBitsBE p 0)
  set c := natToBitsBE p 0 with hc
  have hclen : c.length = p := natToBitsBE_length p 0
  set X := (c ++ sp.buffer).take ((c.length + sp.buffer.length) % 8) with hX
  have hXlen : X.length = (p + sp.buffer.length) % 8 := by
    rw [hX, List.length_take, List.length_append, hclen]
    have := Nat.mod_le (p + sp.buffer.length) 8
    omega
  have hIH := ih vals ⟨X, sp.bytestring ++ E1⟩ hvals
    (by
      show layout_ok rest X.length = true
      rw [hXlen, Nat.add_comm p sp.buffer.length]
      exact hlay)
    (by
      show X.length < 8
      rw [hXlen]
      omega)
  obtain ⟨sq, D2, CH2, hq, hqbs, hqbuf, hD2b, hcons2, hunp2⟩ := hIH
  have hproj1 : (⟨X, sp.bytestring ++ E1⟩ : PackState).buffer = X := rfl
  have hproj2 : (⟨X, sp.bytestring ++ E1⟩ : PackState).bytestring = sp.bytestring ++ E1 := rfl
  rw [hproj2] at hqbs
  rw [hproj1] at hcons2 hunp2
  refine ⟨sq, E1 ++ D2, CH2 ++ c, ?_, ?_, hqbuf, ?_, ?_, ?_⟩
  · have h1 : pack_fields (.padding p :: rest) vals sp
        = Bind.bind (add_padding sp p) (fun x => pack_fields rest vals x) := rfl
    have h2 : add_padding sp p = some (append_to_buffer sp c) := by
      unfold add_padding
      rw [if_neg (by omega)]
    rw [h1, h2, hE1]
    exact hq
  · rw [hqbs, List.append_assoc]
  · intro b hb
    rcases List.mem_append.mp hb with hb | hb
    · exact hE1b b hb
    · exact hD2b b hb
  · rw [revFlat_append, hcons2, List.append_assoc, hE1cons, ← List.append_assoc]
  · intro tail ubytes ubuf acc hstream hulen hub hmod hnd hfresh
    rw [show tail ++ (CH2 ++ c) = (tail ++ CH2) ++ c from (List.append_assoc _ _ _).symm]
      at hstream
    obtain ⟨u2, b2, hext, hstr2, hb2len, hu2b⟩ :=
      extract_spec ubytes ubuf (tail ++ CH2) c p hclen hp hstream hulen hub
    have hmod2 : (tail.length + CH2.length + X.length) % 8 = 0 := by
      rw [List.length_append, hclen] at hmod
      rw [hXlen]
      omega
    obtain ⟨u3, b3, hrec, hstr3, hb3len, hu3b⟩ :=
      hunp2 tail u2 b2 acc hstr2 hb2len hu2b hmod2 hnd hfresh
    refine ⟨u3, b3, ?_, hstr3, hb3len, hu3b⟩
    have h1 : unpack_fields (.padding p :: rest) ⟨ubytes, ubuf⟩ acc
        = Bind.bind (extract_from_buffer ⟨ubytes, ubuf⟩ p)
            (fun y => unpack_fields rest y.2 acc) := rfl
    rw [h1, hext]
    exact hrec

/-- Induction step for a fixed-size attribute whose chunk round-trips. -/
theorem pack_unpack_attr_fixed (rest : List StructField) (vals : List (Nat × Value))
    (sp : PackState) (a : StructAttribute) (v : Value) (c : List Bool) (n : Nat)
    (hclen : c.length = n) (hn : 0 < n)
    (hlk : lookup_value vals a.name = some v)
    (hpa : pack_attribute sp a v = some (append_to_buffer sp c))
    (hua : ∀ (u : UnpackState) (s3 : UnpackState),
        extract_from_buffer u n = some (c, s3) →
        unpack_attribute u a = some (v, s3))
    (hbuf : sp.buffer.length < 8)
    (hvals : values_ok rest vals = true)
    (hlay : layout_ok rest ((sp.buffer.length + n) % 8) = true)
    (ih : ∀ (vals2 : List (Nat × Value)) (sp2 : PackState),
        values_ok rest vals2 = true → layout_ok rest sp2.buffer.length = true →
        sp2.buffer.length < 8 → PackUnpackGoal rest vals2 sp2) :
    PackUnpackGoal (.attr a :: rest) vals sp := by
  obtain ⟨E1, hE1, hE1cons, hE1b⟩ := append_to_buffer_spec sp c
  set X := (c ++ sp.buffer).take ((c.length + sp.buffer.length) % 8) with hX
  have hXlen : X.length = (n + sp.buffer.length) % 8 := by
    rw [hX, List.length_take, List.length_append, hclen]
    have := Nat.mod_le (n + sp.buffer.length) 8
    omega
  have hIH := ih vals ⟨X, sp.bytestring ++ E1⟩ hvals
    (by
      show layout_ok rest X.length = true
      rw [hXlen, Nat.add_comm n sp.buffer.length]
      exact hlay)
    (by
      show X.length < 8
      rw [hXlen]
      omega)
  obtain ⟨sq, D2, CH2, hq, hqbs, hqbuf, hD2b, hcons2, hunp2⟩ := hIH
  have hproj1 : (⟨X, sp.bytestring ++ E1⟩ : PackState).buffer = X := rfl
  have hproj2 : (⟨X, sp.bytestring ++ E1⟩ : PackState).bytestring = sp.bytestring ++ E1 := rfl
  rw [hproj2] at hqbs
  rw [hproj1] at hcons2 hunp2
  have hnames : attr_names (.attr a :: rest) = a.name :: attr_names rest := rfl
  refine ⟨sq, E1 ++ D2, CH2 ++ c, ?_, ?_, hqbuf, ?_, ?_, ?_⟩
  · have h1 : pack_fields (.attr a :: rest) vals sp
        = Bind.bind (lookup_value vals a.name)
            (fun v2 => Bind.bind (pack_attribute sp a v2)
              (fun x => pack_fields rest vals x)) := rfl
    rw [h1, hlk]
    show Bind.bind (pack_attribute sp a v) (fun x => pack_fields rest vals x) = some sq
    rw [hpa, hE1]
    exact hq
  · rw [hqbs, List.append_assoc]
  · intro b hb
    rcases List.mem_append.mp hb with hb | hb
    · exact hE1b b hb
    · exact hD2b b hb
  · rw [revFlat_append, hcons2, List.append_assoc, hE1cons, ← List.append_assoc]
  · intro tail ubytes ubuf acc hstream hulen hub hmod hnd hfresh
    rw [hnames] at hnd hfresh
    rw [show tail ++ (CH2 ++ c) = (tail ++ CH2) ++ c from (List.append_assoc _ _ _).symm]
      at hstream
    obtain ⟨u2, b2, hext, hstr2, hb2len, hu2b⟩ :=
      extract_spec ubytes ubuf (tail ++ CH2) c n hclen hn hstream hulen hub
    have hattr := hua ⟨ubytes, ubuf⟩ ⟨u2, b2⟩ hext
    obtain ⟨hnotin, hnd2⟩ := List.nodup_cons.mp hnd
    have hfr_a : acc.all (fun p => p.1 ≠ a.name) = true :=
      hfresh a.name (List.mem_cons_self _ _)
    have hinsert : dict_insert acc a.name v = acc ++ [(a.name, v)] :=
      dict_insert_fresh acc a.name v hfr_a
    have hfresh2 : ∀ n2 ∈ attr_names rest,
        (acc ++ [(a.name, v)]).all (fun p => p.1 ≠ n2) = true := by
      intro n2 hn2
      rw [List.all_append, Bool.and_eq_true]
      refine ⟨hfresh n2 (List.mem_cons_of_mem _ hn2), ?_⟩
      simp only [List.all_cons, List.all_nil, Bool.and_true, decide_eq_true_eq]
      intro he
      exact hnotin (he ▸ hn2)
    have hmod2 : (tail.length + CH2.length + X.length) % 8 = 0 := by
      rw [List.length_append, hclen] at hmod
      rw [hXlen]
      omega
    obtain ⟨u3, b3, hrec, hstr3, hb3len, hu3b⟩ :=
      hunp2 tail u2 b2 (acc ++ [(a.name, v)]) hstr2 hb2len hu2b hmod2 hnd2 hfresh2
    refine ⟨u3, b3, ?_, hstr3, hb3len, hu3b⟩
    have h1 : unpack_fields (.attr a :: rest) ⟨ubytes, ubuf⟩ acc
        = Bind.bind (unpack_attribute ⟨ubytes, ubuf⟩ a)
            (fun y => unpack_fields rest y.2 (dict_insert acc a.name y.1)) := rfl
    rw [h1, hattr]
    show unpack_fields rest ⟨u2, b2⟩ (dict_insert acc a.name v) = _
    rw [hinsert, hrec]
    have hpairs : attr_pairs (.attr a :: rest) vals = (a.name, v) :: attr_pairs rest vals := by
      show (match lookup_value vals a.name with
        | some v2 => (a.name, v2) :: attr_pairs rest vals
        | none => attr_pairs rest vals) = _
      rw [hlk]
    rw [hpairs, List.append_assoc]
    rfl

/-- Induction step for a byte-aligned string/rational attribute whose byte
chunk round-trips. -/
theorem pack_unpack_attr_bytes (rest : List StructField) (vals : List (Nat × Value))
    (sp : PackState) (a : StructAttribute) (v : Value) (cb : List Nat)
    (hlk : lookup_value vals a.name = some v)
    (hpa : pack_attribute sp a v = some ⟨sp.buffer, sp.bytestring ++ cb⟩)
    (hua : ∀ (R : List Nat), unpack_attribute ⟨cb ++ R, []⟩ a = some (v, ⟨R, []⟩))
    (hcbB : ∀ b ∈ cb, b < 256)
    (hempty : sp.buffer = [])
    (hvals : values_ok rest vals = true)
    (hlay : layout_ok rest 0 = true)
    (ih : ∀ (vals2 : List (Nat × Value)) (sp2 : PackState),
        values_ok rest vals2 = true → layout_ok rest sp2.buffer.length = true →
        sp2.buffer.length < 8 → PackUnpackGoal rest vals2 sp2) :
    PackUnpackGoal (.attr a :: rest) vals sp := by
  have hIH := ih vals ⟨sp.buffer, sp.bytestring ++ cb⟩ hvals
    (by
      show layout_ok rest sp.buffer.length = true
      rw [hempty]
      exact hlay)
    (by
      show sp.buffer.length < 8
      rw [hempty]
      simp)
  obtain ⟨sq, D2, CH2, hq, hqbs, hqbuf, hD2b, hcons2, hunp2⟩ := hIH
  have hproj1 : (⟨sp.buffer, sp.bytestring ++ cb⟩ : PackState).buffer = sp.buffer := rfl
  have hproj2 : (⟨sp.buffer, sp.bytestring ++ cb⟩ : PackState).bytestring
      = sp.bytestring ++ cb := rfl
  rw [hproj2] at hqbs
  rw [hproj1] at hcons2 hunp2
  have hnames : attr_names (.attr a :: rest) = a.name :: attr_names rest := rfl
  refine ⟨sq, cb ++ D2, CH2 ++ revFlat cb, ?_, ?_, hqbuf, ?_, ?_, ?_⟩
  · have h1 : pack_fields (.attr a :: rest) vals sp
        = Bind.bind (lookup_value vals a.name)
            (fun v2 => Bind.bind (pack_attribute sp a v2)
              (fun x => pack_fields rest vals x)) := rfl
    rw [h1, hlk]
    show Bind.bind (pack_attribute sp a v) (fun x => pack_fields rest vals x) = some sq
    rw [hpa]
    exact hq
  · rw [hqbs, List.append_assoc]
  · intro b hb
    rcases List.mem_append.mp hb with hb | hb
    · exact hcbB b hb
    · exact hD2b b hb
  · rw [revFlat_append, hcons2, hempty, List.append_nil, List.append_nil]
  · intro tail ubytes ubuf acc hstream hulen hub hmod hnd hfresh
    rw [hnames] at hnd hfresh
    have hCHlen : (CH2 ++ revFlat cb).length = CH2.length + 8 * cb.length := by
      rw [List.length_append, revFlat_length]
    rw [hempty, List.length_nil, hCHlen] at hmod
    have hubuf0 : ubuf = [] := by
      apply List.length_eq_zero.mp
      have hl := congrArg List.length hstream
      rw [List.length_append, List.length_append, revFlat_length, hCHlen] at hl
      omega
    subst hubuf0
    rw [List.append_nil] at hstream
    have hstream2 : revFlat ubytes = (tail ++ CH2) ++ revFlat cb := by
      rw [hstream, List.append_assoc]
    obtain ⟨u2, hu2eq, hu2flat⟩ := revFlat_suffix_split ubytes cb (tail ++ CH2)
      hstream2 hub hcbB
    have hattr : unpack_attribute ⟨ubytes, []⟩ a = some (v, ⟨u2, []⟩) := by
      rw [hu2eq]
      exact hua u2
    obtain ⟨hnotin, hnd2⟩ := List.nodup_cons.mp hnd
    have hfr_a : acc.all (fun p => p.1 ≠ a.name) = true :=
      hfresh a.name (List.mem_cons_self _ _)
    have hinsert : dict_insert acc a.name v = acc ++ [(a.name, v)] :=
      dict_insert_fresh acc a.name v hfr_a
    have hfresh2 : ∀ n2 ∈ attr_names rest,
        (acc ++ [(a.name, v)]).all (fun p => p.1 ≠ n2) = true := by
      intro n2 hn2
      rw [List.all_append, Bool.and_eq_true]
      refine ⟨hfresh n2 (List.mem_cons_of_mem _ hn2), ?_⟩
      simp only [List.all_cons, List.all_nil, Bool.and_true, decide_eq_true_eq]
      intro he
      exact hnotin (he ▸ hn2)
    have hmod2 : (tail.length + CH2.length + sp.buffer.length) % 8 = 0 := by
      rw [hempty, List.length_nil]
      omega
    have hu2b : ∀ b ∈ u2, b < 256 := by
      intro b hb
      exact hub b (by rw [hu2eq]; exact List.mem_append_right _ hb)
    have hstr2 : revFlat u2 ++ ([] : List Bool) = tail ++ CH2 := by
      rw [List.append_nil]
      exact hu2flat
    obtain ⟨u3, b3, hrec, hstr3, hb3len, hu3b⟩ :=
      hunp2 tail u2 [] (acc ++ [(a.name, v)]) hstr2 (by simp) hu2b hmod2 hnd2 hfresh2
    refine ⟨u3, b3, ?_, hstr3, hb3len, hu3b⟩
    have h1 : unpack_fields (.attr a :: rest) ⟨ubytes, []⟩ acc
        = Bind.bind (unpack_attribute ⟨ubytes, []⟩ a)
            (fun y => unpack_fields rest y.2 (dict_insert acc a.name y.1)) := rfl
    rw [h1, hattr]
    show unpack_fields rest ⟨u2, []⟩ (dict_insert acc a.name v) = _
    rw [hinsert, hrec]
    have hpairs : attr_pairs (.attr a :: rest) vals = (a.name, v) :: attr_pairs rest vals := by
      show (match lookup_value vals a.name with
        | some v2 => (a.name, v2) :: attr_pairs rest vals
        | none => attr_pairs rest vals) = _
      rw [hlk]
    rw [hpairs, List.append_assoc]
    rfl

/-- The struct machines invert each other field by field: for every
conforming record the packer succeeds and the unpacker undoes it. -/
theorem pack_unpack_fields (F : List StructField) :
    ∀ (vals : List (Nat × Value)) (sp : PackState),
      values_ok F vals = true →
      layout_ok F sp.buffer.length = true →
      sp.buffer.length < 8 →
      PackUnpackGoal F vals sp := by
  induction F with
  | nil =>
      intro vals sp hvals hlay hbuf
      have hlen0 : sp.buffer.length = 0 := by
        have h := hlay
        rw [show layout_ok [] sp.buffer.length = decide (sp.buffer.length = 0) from rfl,
          decide_eq_true_eq] at h
        exact h
      have hempty : sp.buffer = [] := List.length_eq_zero.mp hlen0
      refine ⟨sp, [], [], rfl, by simp, hempty, by simp, ?_, ?_⟩
      · rw [revFlat_nil, hempty]
        rfl
      · intro tail ubytes ubuf acc hstream hulen hub hmod hnd hfresh
        refine ⟨ubytes, ubuf, ?_, ?_, hulen, hub⟩
        · show some (acc, (⟨ubytes, ubuf⟩ : UnpackState)) = _
          rw [show attr_pairs [] vals = [] from rfl, List.append_nil]
        · rw [List.append_nil] at hstream
          exact hstream
  | cons fld rest ih =>
      intro vals sp hvals hlay hbuf
      match fld with
      | .padding p =>
          have hlay2 : (decide (0 < p)
              && layout_ok rest ((sp.buffer.length + p) % 8)) = true := hlay
          rw [Bool.and_eq_true, decide_eq_true_eq] at hlay2
          exact pack_unpack_padding rest vals sp p hlay2.1 hbuf hvals hlay2.2 ih
      | .attr a =>
          obtain ⟨nm, ty, sz⟩ := a
          have hv : ((match lookup_value vals nm with
              | some v => value_ok ⟨nm, ty, sz⟩ v
              | none => false) && values_ok rest vals) = true := hvals
          rw [Bool.and_eq_true] at hv
          obtain ⟨hv1, hvals2⟩ := hv
          cases hlk : lookup_value vals nm with
          | none =>
              rw [hlk] at hv1
              exact absurd hv1 (by simp)
          | some v =>
          rw [hlk] at hv1
          cases ty with
          | bytes => cases sz <;> exact absurd (show (false : Bool) = true from hlay) (by simp)
          | int16 => cases sz <;> exact absurd (show (false : Bool) = true from hlay) (by simp)
          | uint16 => cases sz <;> exact absurd (show (false : Bool) = true from hlay) (by simp)
          | int32 => cases sz <;> exact absurd (show (false : Bool) = true from hlay) (by simp)
          | uint32 => cases sz <;> exact absurd (show (false : Bool) = true from hlay) (by simp)
          | int64 => cases sz <;> exact absurd (show (false : Bool) = true from hlay) (by simp)
          | uint64 => cases sz <;> exact absurd (show (false : Bool) = true from hlay) (by simp)
          | doubleInterval =>
              cases sz <;> exact absurd (show (false : Bool) = true from hlay) (by simp)
          | rationalInterval =>
              cases sz <;> exact absurd (show (false : Bool) = true from hlay) (by simp)
          | json => cases sz <;> exact absurd (show (false : Bool) = true from hlay) (by simp)
          | struct => cases sz <;> exact absurd (show (false : Bool) = true from hlay) (by simp)
          | bool =>
              cases sz with
              | none => exact absurd (show (false : Bool) = true from hlay) (by simp)
              | some n =>
                  have hlay2 : (decide (0 < n)
                      && layout_ok rest ((sp.buffer.length + n) % 8)) = true := hlay
                  rw [Bool.and_eq_true, decide_eq_true_eq] at hlay2
                  obtain ⟨hn, hlay3⟩ := hlay2
                  cases v with
                  | bool b =>
                      obtain ⟨hbp, hbu⟩ := boolean_codec_spec b n hn
                      refine pack_unpack_attr_fixed rest vals sp ⟨nm, .bool, some n⟩
                        (.bool b) (natToBitsBE n (cond b 1 0)) n (natToBitsBE_length n _)
                        hn hlk ?_ ?_ hbuf hvals2 hlay3 ih
                      · have h1 : pack_attribute sp ⟨nm, .bool, some n⟩ (.bool b)
                            = Bind.bind (boolean_pack b (some n))
                                (fun bits => some (append_to_buffer sp bits)) := by
                          unfold pack_attribute
                          rw [if_neg (by simp)]
                          rfl
                        rw [h1, hbp]
                        rfl
                      · intro u s3 hext
                        have h2 : unpack_attribute u ⟨nm, .bool, some n⟩
                            = Bind.bind (extract_from_buffer u n)
                                (fun y => some (.bool (boolean_unpack y.1), y.2)) := by
                          unfold unpack_attribute
                          rw [if_neg (by simp)]
                          rfl
                        rw [h2, hext]
                        show some (Value.bool (boolean_unpack (natToBitsBE n (cond b 1 0))), s3)
                          = some (Value.bool b, s3)
                        rw [hbu]
                  | int z => exact absurd (show (false : Bool) = true from hv1) (by simp)
                  | double d => exact absurd (show (false : Bool) = true from hv1) (by simp)
                  | rational f => exact absurd (show (false : Bool) = true from hv1) (by simp)
                  | str s => exact absurd (show (false : Bool) = true from hv1) (by simp)
                  | tuple l r => exact absurd (show (false : Bool) = true from hv1) (by simp)
                  | interval l r => exact absurd (show (false : Bool) = true from hv1) (by simp)
          | int =>
              cases sz with
              | none => exact absurd (show (false : Bool) = true from hlay) (by simp)
              | some n =>
                  have hlay2 : (decide (0 < n)
                      && layout_ok rest ((sp.buffer.length + n) % 8)) = true := hlay
                  rw [Bool.and_eq_true, decide_eq_true_eq] at hlay2
                  obtain ⟨hn, hlay3⟩ := hlay2
                  cases v with
                  | int z =>
                      have hfit : assert_integer_fits z true n = true := hv1
                      obtain ⟨c, hcp, hclen, hcu⟩ := integer_codec_spec z n true hfit
                      refine pack_unpack_attr_fixed rest vals sp ⟨nm, .int, some n⟩
                        (.int z) c n hclen hn hlk ?_ ?_ hbuf hvals2 hlay3 ih
                      · have h1 : pack_attribute sp ⟨nm, .int, some n⟩ (.int z)
                            = Bind.bind (integer_pack z n true)
                                (fun bits => some (append_to_buffer sp bits)) := by
                          unfold pack_attribute
                          rw [if_neg (by simp)]
                          rfl
                        rw [h1, hcp]
                        rfl
                      · intro u s3 hext
                        have h2 : unpack_attribute u ⟨nm, .int, some n⟩
                            = Bind.bind (extract_from_buffer u n)
                                (fun y => Bind.bind (integer_unpack y.1 true)
                                  (fun z2 => some (.int z2, y.2))) := by
                          unfold unpack_attribute
                          rw [if_neg (by simp)]
                          rfl
                        rw [h2, hext]
                        show (do
                            let z2 ← integer_unpack c true
                            some (Value.int z2, s3)) = some (Value.int z, s3)
                        rw [hcu]
                        rfl
                  | bool b => exact absurd (show (false : Bool) = true from hv1) (by simp)
                  | double d => exact absurd (show (false : Bool) = true from hv1) (by simp)
                  | rational f => exact absurd (show (false : Bool) = true from hv1) (by simp)
                  | str s => exact absurd (show (false : Bool) = true from hv1) (by simp)
                  | tuple l r => exact absurd (show (false : Bool) = true from hv1) (by simp)
                  | interval l r => exact absurd (show (false : Bool) = true from hv1) (by simp)
          | uint =>
              cases sz with
              | none => exact absurd (show (false : Bool) = true from hlay) (by simp)
              | some n =>
                  have hlay2 : (decide (0 < n)
                      && layout_ok rest ((sp.buffer.length + n) % 8)) = true := hlay
                  rw [Bool.and_eq_true, decide_eq_true_eq] at hlay2
                  obtain ⟨hn, hlay3⟩ := hlay2
                  cases v with
                  | int z =>
                      have hfit : assert_integer_fits z false n = true := hv1
                      obtain ⟨c, hcp, hclen, hcu⟩ := integer_codec_spec z n false hfit
                      refine pack_unpack_attr_fixed rest vals sp ⟨nm, .uint, some n⟩
                        (.int z) c n hclen hn hlk ?_ ?_ hbuf hvals2 hlay3 ih
                      · have h1 : pack_attribute sp ⟨nm, .uint, some n⟩ (.int z)
                            = Bind.bind (integer_pack z n false)
                                (fun bits => some (append_to_buffer sp bits)) := by
                          unfold pack_attribute
                          rw [if_neg (by simp)]
                          rfl
                        rw [h1, hcp]
                        rfl
                      · intro u s3 hext
                        have h2 : unpack_attribute u ⟨nm, .uint, some n⟩
                            = Bind.bind (extract_from_buffer u n)
                                (fun y => Bind.bind (integer_unpack y.1 false)
                                  (fun z2 => some (.int z2, y.2))) := by
                          unfold unpack_attribute
                          rw [if_neg (by simp)]
                          rfl
                        rw [h2, hext]
                        show (do
                            let z2 ← integer_unpack c false
                            some (Value.int z2, s3)) = some (Value.int z, s3)
                        rw [hcu]
                        rfl
                  | bool b => exact absurd (show (false : Bool) = true from hv1) (by simp)
                  | double d => exact absurd (show (false : Bool) = true from hv1) (by simp)
                  | rational f => exact absurd (show (false : Bool) = true from hv1) (by simp)
                  | str s => exact absurd (show (false : Bool) = true from hv1) (by simp)
                  | tuple l r => exact absurd (show (false : Bool) = true from hv1) (by simp)
                  | interval l r => exact absurd (show (false : Bool) = true from hv1) (by simp)
          | double =>
              cases sz with
              | none => exact absurd (show (false : Bool) = true from hlay) (by simp)
              | some n =>
                  have hlay2 : (decide (n = 64)
                      && layout_ok rest ((sp.buffer.length + n) % 8)) = true := hlay
                  rw [Bool.and_eq_true, decide_eq_true_eq] at hlay2
                  obtain ⟨hn64, hlay3⟩ := hlay2
                  subst hn64
                  cases v with
                  | double bits =>
                      have hlt : bits < 2 ^ 64 := of_decide_eq_true hv1
                      refine pack_unpack_attr_fixed rest vals sp ⟨nm, .double, some 64⟩
                        (.double bits) (natToBitsBE 64 bits) 64 (natToBitsBE_length 64 _)
                        (by omega) hlk ?_ ?_ hbuf hvals2 hlay3 ih
                      · have h1 : pack_attribute sp ⟨nm, .double, some 64⟩ (.double bits)
                            = Bind.bind
                                (if (⟨nm, CommonType.double, some 64⟩
                                    : StructAttribute).size = some 64
                                  then some (double_pack bits) else none)
                                (fun bits2 => some (append_to_buffer sp bits2)) := by
                          unfold pack_attribute
                          rw [if_neg (by simp)]
                          rfl
                        rw [h1, if_pos rfl]
                        rfl
                      · intro u s3 hext
                        have h2 : unpack_attribute u ⟨nm, .double, some 64⟩
                            = Bind.bind (extract_from_buffer u 64)
                                (fun y => Bind.bind (double_unpack y.1)
                                  (fun d => some (.double d, y.2))) := by
                          unfold unpack_attribute
                          rw [if_neg (by simp)]
                          rfl
                        rw [h2, hext]
                        show (do
                            let d ← double_unpack (natToBitsBE 64 bits)
                            some (Value.double d, s3)) = some (Value.double bits, s3)
                        rw [show double_unpack (natToBitsBE 64 bits) = some bits from
                          double_codec_spec bits hlt]
                        rfl
                  | bool b => exact absurd (show (false : Bool) = true from hv1) (by simp)
                  | int z => exact absurd (show (false : Bool) = true from hv1) (by simp)
                  | rational f => exact absurd (show (false : Bool) = true from hv1) (by simp)
                  | str s => exact absurd (show (false : Bool) = true from hv1) (by simp)
                  | tuple l r => exact absurd (show (false : Bool) = true from hv1) (by simp)
                  | interval l r => exact absurd (show (false : Bool) = true from hv1) (by simp)
          | string =>
              have hlay2 : (decide (sp.buffer.length = 0) && layout_ok rest 0) = true := hlay
              rw [Bool.and_eq_true, decide_eq_true_eq] at hlay2
              obtain ⟨hlen0, hlay3⟩ := hlay2
              have hempty : sp.buffer = [] := List.length_eq_zero.mp hlen0
              cases v with
              | str s =>
                  have hsok : (!s.isEmpty && decide (s.length < 2 ^ 16)
                      && s.all (fun b => decide (b < 256))) = true := hv1
                  rw [Bool.and_eq_true, Bool.and_eq_true] at hsok
                  obtain ⟨⟨hne0, hlt16⟩, hsb⟩ := hsok
                  have hne : s ≠ [] := by
                    intro h0
                    rw [h0] at hne0
                    simp at hne0
                  have hlt : s.length < 2 ^ 16 := of_decide_eq_true hlt16
                  have hsb2 : ∀ b ∈ s, b < 256 := by
                    intro b hb
                    exact of_decide_eq_true (List.all_eq_true.mp hsb b hb)
                  refine pack_unpack_attr_bytes rest vals sp ⟨nm, .string, sz⟩ (.str s)
                    (natToBytesLE 2 s.length ++ s) hlk ?_ ?_ ?_ hempty hvals2 hlay3 ih
                  · have h1 : pack_attribute sp ⟨nm, .string, sz⟩ (.str s)
                        = Bind.bind (string_pack s)
                            (fun b2 => some (⟨sp.buffer, sp.bytestring ++ b2⟩
                              : PackState)) := by
                      unfold pack_attribute
                      rw [if_pos (Or.inl rfl), if_neg (by rw [hempty]; simp)]
                      rfl
                    rw [h1, string_pack_eq s hlt]
                    rfl
                  · intro R
                    have h2 : unpack_attribute ⟨(natToBytesLE 2 s.length ++ s) ++ R, []⟩
                          ⟨nm, .string, sz⟩
                        = Bind.bind (string_unpack ((natToBytesLE 2 s.length ++ s) ++ R))
                            (fun y => some (.str y.1, (⟨y.2, []⟩ : UnpackState))) := by
                      unfold unpack_attribute
                      rw [if_pos (Or.inl rfl), if_neg (by simp), if_pos rfl]
                      rfl
                    rw [h2, string_unpack_exact s R hne hlt]
                    rfl
                  · intro b hb
                    rcases List.mem_append.mp hb with hb | hb
                    · exact natToBytesLE_lt 2 _ b hb
                    · exact hsb2 b hb
              | bool b => exact absurd (show (false : Bool) = true from hv1) (by simp)
              | int z => exact absurd (show (false : Bool) = true from hv1) (by simp)
              | double d => exact absurd (show (false : Bool) = true from hv1) (by simp)
              | rational f => exact absurd (show (false : Bool) = true from hv1) (by simp)
              | tuple l r => exact absurd (show (false : Bool) = true from hv1) (by simp)
              | interval l r => exact absurd (show (false : Bool) = true from hv1) (by simp)
          | rational =>
              have hlay2 : (decide (sp.buffer.length = 0) && layout_ok rest 0) = true := hlay
              rw [Bool.and_eq_true, decide_eq_true_eq] at hlay2
              obtain ⟨hlen0, hlay3⟩ := hlay2
              have hempty : sp.buffer = [] := List.length_eq_zero.mp hlen0
              cases v with
              | rational f =>
                  have hfok : (decide (0 < f.den) && decide (Int.gcd f.num f.den = 1)
                      && decide (num_bytes_for_rational f / 2 < 2 ^ 16)) = true := hv1
                  rw [Bool.and_eq_true, Bool.and_eq_true] at hfok
                  obtain ⟨⟨hd, hg⟩, h16⟩ := hfok
                  have hf : f.normalized := ⟨of_decide_eq_true hd, of_decide_eq_true hg⟩
                  obtain ⟨cb, hcbp, hcbB, hcbu⟩ :=
                    rational_chunk_spec f hf (of_decide_eq_true h16)
                  refine pack_unpack_attr_bytes rest vals sp ⟨nm, .rational, sz⟩
                    (.rational f) cb hlk ?_ ?_ hcbB hempty hvals2 hlay3 ih
                  · have h1 : pack_attribute sp ⟨nm, .rational, sz⟩ (.rational f)
                        = Bind.bind (rational_pack f)
                            (fun b2 => some (⟨sp.buffer, sp.bytestring ++ b2⟩
                              : PackState)) := by
                      unfold pack_attribute
                      rw [if_pos (Or.inr rfl), if_neg (by rw [hempty]; simp)]
                      rfl
                    rw [h1, hcbp]
                    rfl
                  · intro R
                    have h2 : unpack_attribute ⟨cb ++ R, []⟩ ⟨nm, .rational, sz⟩
                        = Bind.bind (rational_unpack (cb ++ R))
                            (fun y => some (.rational y.1, (⟨y.2, []⟩ : UnpackState))) := by
                      unfold unpack_attribute
                      rw [if_pos (Or.inr rfl), if_neg (by simp), if_neg (by simp)]
                      rfl
                    rw [h2, hcbu R]
                    rfl
              | bool b => exact absurd (show (false : Bool) = true from hv1) (by simp)
              | int z => exact absurd (show (false : Bool) = true from hv1) (by simp)
              | double d => exact absurd (show (false : Bool) = true from hv1) (by simp)
              | str s => exact absurd (show (false : Bool) = true from hv1) (by simp)
              | tuple l r => exact absurd (show (false : Bool) = true from hv1) (by simp)
              | interval l r => exact absurd (show (false : Bool) = true from hv1) (by simp)

/-- C3 counterexample: the empty string conforms to a string attribute (it is
a `str` instance; no size is declared for strings), and packing it succeeds
with the two-byte payload `00 00`, but unpacking that payload raises: the
zero length prefix makes `string_unpack` call `split_bytes(rest, 0)`, whose
`assert length > 0` fails.  The claimed round trip therefore fails on a
conforming record. -/
theorem C3_counterexample :
    struct_pack ⟨1, [.attr ⟨0, .string, none⟩]⟩ [(0, .str [])] = some [0, 0] ∧
    struct_unpack [0, 0] ⟨1, [.attr ⟨0, .string, none⟩]⟩ = none := by decide

/-- C3 (amended): for a struct whose layout is well-formed (declared positive
sizes on every fixed-size attribute, `double` at 64 bits, byte alignment
before every string/rational attribute and at the end) and a record binding
exactly the attribute names, in order and without repetition, to conforming
values (integers in range of the declared width, doubles 64-bit patterns,
strings non-empty with `uint16` lengths and byte code units, rationals
reduced with positive denominators and `uint16` term sizes), the packer
succeeds and `struct_unpack (struct_pack S r) S = r`. -/
theorem C3_struct_roundtrip (S : StructType) (vals : List (Nat × Value))
    (hlay : layout_ok S.fields 0 = true)
    (hvals : values_ok S.fields vals = true)
    (hkeys : vals.map Prod.fst = attr_names S.fields)
    (hnd : (attr_names S.fields).Nodup) :
    ∃ B, struct_pack S vals = some B ∧ struct_unpack B S = some vals := by
  have hmain := pack_unpack_fields S.fields vals ⟨[], []⟩ hvals
    (by
      show layout_ok S.fields ([] : List Bool).length = true
      simpa using hlay)
    (by simp)
  obtain ⟨sq, D, CH, hq, hqbs, hqbuf, hDb, hcons, hunp⟩ := hmain
  have hqbs2 : sq.bytestring = D := by simpa using hqbs
  have hCH : revFlat D = CH := by simpa using hcons
  refine ⟨D, ?_, ?_⟩
  · unfold struct_pack
    rw [hq]
    show (if sq.buffer.length = 0 then some sq.bytestring else none) = some D
    rw [hqbuf, hqbs2]
    simp
  · have hu := hunp [] D [] []
      (by rw [← hCH]; simp)
      (by simp)
      hDb
      (by
        show (([] : List Bool).length + CH.length
          + (⟨[], []⟩ : PackState).buffer.length) % 8 = 0
        rw [← hCH, revFlat_length]
        simp)
      hnd
      (by intro n hn; simp)
    obtain ⟨u2, b2, hrec, hstr, hb2len, -⟩ := hu
    have hb2 : b2 = [] := (List.append_eq_nil.mp hstr).2
    unfold struct_unpack
    rw [hrec]
    show (if b2.length = 0 then
        some (([] : List (Nat × Value)) ++ attr_pairs S.fields vals) else none) = some vals
    rw [hb2]
    simp [attr_pairs_eq_self S.fields vals hkeys hnd]

theorem C3_witness :
    ∃ B, struct_pack
        ⟨1, [.attr ⟨0, .uint, some 3⟩, .padding 5, .attr ⟨1, .int, some 16⟩,
             .attr ⟨2, .string, none⟩, .attr ⟨3, .double, some 64⟩,
             .attr ⟨4, .rational, none⟩, .attr ⟨5, .bool, some 8⟩]⟩
        [(0, .int 5), (1, .int (-300)), (2, .str [104, 105]),
         (3, .double 4614256656552045848), (4, .rational ⟨-7, 13⟩), (5, .bool true)]
        = some B ∧
      struct_unpack B
        ⟨1, [.attr ⟨0, .uint, some 3⟩, .padding 5, .attr ⟨1, .int, some 16⟩,
             .attr ⟨2, .string, none⟩, .attr ⟨3, .double, some 64⟩,
             .attr ⟨4, .rational, none⟩, .attr ⟨5, .bool, some 8⟩]⟩
        = some [(0, .int 5), (1, .int (-300)), (2, .str [104, 105]),
                (3, .double 4614256656552045848), (4, .rational ⟨-7, 13⟩),
                (5, .bool true)] :=
  C3_struct_roundtrip _ _ (by decide) (by decide) (by decide) (by decide)

end Umbi
